import Mathlib

/-!
# cgmlst-dists: capped allele distance, work partition and matrix output

A shallow embedding of `src/main.c`.

* C arrays (`uint32_t*`, `char*`) are lists; a read at index `i` is `getD i 0`.
* The input file is a list of bytes, each written as a `Char`; a C string is
  the list of its bytes without the terminating NUL.
* Memory allocation is taken to succeed (`calloc_safe` returns).
* `long` has 64 bits and `int` 32 (the source prints `int64_t` with `%ld`).
* `uint32_t` arithmetic that can wrap is written with an explicit `% 2 ^ 32`.
* Text written to the diagnostic stream (`stderr`) is not part of the model;
  the model of `main` returns what is written to `stdout`.
-/

namespace CgmlstDists

/-! ## Constants (main.c lines 12-31) -/

/-- EXENAME, the label that opens the header line. -/
def EXENAME : List Char := "cgmlst-dists".toList

/-- MAX_LINE, the size of the line buffer handed to `fgets`. -/
def MAX_LINE : Nat := 100000

/-- MAX_ASM, the size of the `id` and `call` arrays. -/
def MAX_ASM : Nat := 100000

/-- DELIMS, the delimiter set handed to `strtok_r`. -/
def DELIMS : List Char := ['\n', '\r', '\t']

/-- IGNORE_ALLELE, the allele code that never counts as a mismatch. -/
def IGNORE_ALLELE : Nat := 0

/-- REPLACE_CHAR, the character written over letters by `cleanup_line`. -/
def REPLACE_CHAR : Char := ' '

/-! ## distance (main.c lines 70-80) -/

/-- The condition of the `if` at line 74, at position `i`. -/
def mismatch (a b : List Nat) (i : Nat) : Bool :=
  a.getD i 0 != b.getD i 0 && a.getD i 0 != IGNORE_ALLELE && b.getD i 0 != IGNORE_ALLELE

/-- The `for` loop of `distance`: `n` iterations remain, the loop variable is
`i` and the counter is `diff`.  `diff++` is a `uint32_t` increment; the early
`return maxdiff` leaves the loop. -/
def distance_loop (a b : List Nat) (maxdiff : Nat) : Nat → Nat → Nat → Nat
  | 0, _, diff => diff
  | n + 1, i, diff =>
    if mismatch a b i then
      let diff1 := (diff + 1) % 2 ^ 32
      if diff1 ≥ maxdiff then maxdiff else distance_loop a b maxdiff n (i + 1) diff1
    else distance_loop a b maxdiff n (i + 1) diff

/-- Model of `distance(a, b, len, maxdiff)`. -/
def distance (a b : List Nat) (len maxdiff : Nat) : Nat :=
  distance_loop a b maxdiff len 0 0

/-- The number of positions at which two sequences hold different codes, both
of them typed (non-zero): the `k` of the specification. -/
def mismatch_count (a b : List Nat) : Nat :=
  (a.zip b).countP (fun p => decide (p.1 ≠ p.2 ∧ p.1 ≠ 0 ∧ p.2 ≠ 0))

/-- The number of mismatching positions among `i, i+1, ..., i+n-1`. -/
def mismatch_from (a b : List Nat) : Nat → Nat → Nat
  | 0, _ => 0
  | n + 1, i => (if mismatch a b i then 1 else 0) + mismatch_from a b n (i + 1)

/-! ## thread_function (main.c lines 82-112) -/

/-- The fields of `struct targs` that the computation reads (`quiet` only
switches diagnostics).  `dist` is the worker's own buffer, as `calloc_safe`
returned it: `(t2 - t1) * nrow` zeros. -/
structure targs where
  thread : Nat
  t1 : Nat
  t2 : Nat
  call : List (List Nat)
  dist : List Nat
  nrow : Nat
  ncol : Nat
  maxdiff : Nat
  deriving Inhabited

/-- The inner `for` loop of `thread_function` (lines 106-109) for local row
`j`: it stores `distance(call[j], call[i], ncol, maxdiff)` at `dist[j*nrow+i]`. -/
def thread_row (values : targs) (dist : List Nat) (j : Nat) : List Nat :=
  (List.range values.nrow).foldl
    (fun dist i =>
      let d := distance (values.call.getD j []) (values.call.getD i []) values.ncol values.maxdiff
      dist.set (j * values.nrow + i) d)
    dist

/-- Model of `thread_function`: the content of the worker's buffer when the
function returns.  The outer loop runs `j` over `0 .. t2 - t1 - 1`. -/
def thread_function (values : targs) : List Nat :=
  (List.range (values.t2 - values.t1)).foldl (thread_row values) values.dist

/-! ## main: dispatch of the workers (lines 276-319) -/

/-- The body of the dispatch loop for thread `t` (lines 286-307): the
argument record handed to the new thread. -/
def make_targs (threads nrow ncol maxdiff : Nat) (call : List (List Nat)) (t : Nat) : targs :=
  let interval := nrow / threads
  let interval_remainder := nrow % threads
  let t1 := t * interval
  let t2 := (t + 1) * interval
  let t2 := if t = threads - 1 then t2 + interval_remainder else t2
  { thread := t, t1 := t1, t2 := t2, call := call,
    dist := List.replicate ((t2 - t1) * nrow) 0,
    nrow := nrow, ncol := ncol, maxdiff := maxdiff }

/-- The array `argset` after the dispatch loop. -/
def argset (threads nrow ncol maxdiff : Nat) (call : List (List Nat)) : List targs :=
  (List.range threads).map (make_targs threads nrow ncol maxdiff call)

/-- The ranges `[t1, t2)` of the workers, in thread order. -/
def work_ranges (threads nrow : Nat) : List (Nat × Nat) :=
  (argset threads nrow 0 0 []).map (fun th => (th.t1, th.t2))

/-- The array `dist_list` after every thread has been joined.  Each worker
writes its own buffer only and reads the shared `call` table only, so the
buffers do not depend on how the threads are scheduled. -/
def dist_list (threads nrow ncol maxdiff : Nat) (call : List (List Nat)) : List (List Nat) :=
  (argset threads nrow ncol maxdiff call).map thread_function

/-! ## main: output (lines 321-344) -/

/-- What `printf("%d", v)` writes for a `uint32_t` value `v`: the value read
as a signed 32-bit integer, in decimal. -/
def fmt_d (v : Nat) : List Char :=
  if v % 2 ^ 32 < 2 ^ 31 then Nat.toDigits 10 (v % 2 ^ 32)
  else '-' :: Nat.toDigits 10 (2 ^ 32 - v % 2 ^ 32)

/-- The header loop and the newline after it (lines 326-331). -/
def print_header (sep : Char) (id : List (List Char)) (nrow : Nat) : List Char :=
  (List.range nrow).flatMap
    (fun j => (if j = 0 then EXENAME else []) ++ sep :: id.getD j []) ++ ['\n']

/-- `start` of line 337; `mode & 1` is bit 0 of `mode`. -/
def row_start (mode : Int) (j : Nat) : Nat :=
  if mode.testBit 0 then 0 else j

/-- `end` of line 338; `mode & 2` is bit 1 of `mode`. -/
def row_end (mode : Int) (j nrow : Nat) : Nat :=
  if mode.testBit 1 then nrow else j + 1

/-- The values of `i` that the loop of line 339 runs through for the row with
loop index `j`. -/
def row_cols (mode : Int) (j nrow : Nat) : List Nat :=
  List.range' (row_start mode j) (row_end mode j nrow - row_start mode j)

/-- One row of the printed matrix: the identifier written at line 336 and the
values handed to `printf` at line 340, in order. -/
structure OutRow where
  ident : List Char
  cells : List Nat

/-- The rows that the matrix loops (lines 334-344) print, in order: thread
`t` from `0` to `threads - 1`, and `j` from `0` to `t2 - t1 - 1` inside it. -/
def matrix_rows (mode : Int) (id : List (List Char)) (threads nrow : Nat)
    (args : List targs) (dists : List (List Nat)) : List OutRow :=
  let interval := nrow / threads
  (List.range threads).flatMap (fun t =>
    let th := args.getD t default
    (List.range (th.t2 - th.t1)).map (fun j =>
      { ident := id.getD (t * interval + j) [],
        cells := (row_cols mode j nrow).map (fun i => (dists.getD t []).getD (j * nrow + i) 0) }))

/-- The pairs (thread `t`, local row `j`) in the order in which the matrix
loops of lines 334-335 visit them. -/
def row_index (threads nrow : Nat) : List (Nat × Nat) :=
  (List.range threads).flatMap (fun t =>
    (List.range ((make_targs threads nrow 0 0 [] t).t2 - (make_targs threads nrow 0 0 [] t).t1)).map
      (fun j => (t, j)))

/-- The text of one row: identifier, then separator and value for every
cell, then a newline. -/
def render_row (sep : Char) (r : OutRow) : List Char :=
  r.ident ++ r.cells.flatMap (fun v => sep :: fmt_d v) ++ ['\n']

/-- Everything `main` writes to `stdout` once the table is loaded
(lines 276-344), for `threads ≥ 1` workers. -/
def emit (csv : Bool) (mode : Int) (threads maxdiff : Nat)
    (id : List (List Char)) (call : List (List Nat)) (nrow ncol : Nat) : List Char :=
  let args := argset threads nrow ncol maxdiff call
  let dists := dist_list threads nrow ncol maxdiff call
  let sep := if csv then ',' else '\t'
  print_header sep id nrow ++
    ((matrix_rows mode id threads nrow args dists).map (render_row sep)).flatten

/-! ## Outcomes of a run -/

/-- The ways in which the program ends before it has written its output:
through `exit` while loading, with the numbers its diagnostic prints, or
killed by a signal. -/
inductive Exit where
  /-- Line 133-134: `ERROR: str_replace(sl,ol,nl)`, `exit(EXIT_FAILURE)`. -/
  | str_replace_guard (sl ol nl : Nat)
  /-- Line 239-240: `row N has an empty ID in first column`. -/
  | empty_id (n : Int)
  /-- Line 261-262: `Too many rows, can only handle MAX_ASM`. -/
  | too_many_rows
  /-- Line 266-267: `ERROR: row R had C cols, expected E`, `exit(-1)`. -/
  | col_mismatch (r c : Int) (e : Nat)
  /-- Line 74, called from line 107: `distance` reads through a row pointer
  that is NULL; the process is killed (SIGSEGV). -/
  | segfault
  deriving DecidableEq, Repr

/-- Outcome of running a piece of code: it returns a value, it leaves the
program through `exit`, or the loop budget of the model ran out before it
returned. -/
inductive Run (α : Type) where
  | done : α → Run α
  | exit : Exit → Run α
  | hang : Run α
  deriving DecidableEq, Repr

/-- Sequencing: the second piece runs only when the first one returned. -/
def Run.bind {α β : Type} (x : Run α) (f : α → Run β) : Run β :=
  match x with
  | .done a => f a
  | .exit e => .exit e
  | .hang => .hang

/-! ## C library functions used by the loader -/

/-- Model of `strstr`: the offset of the first occurrence of `needle`. -/
def strstr : List Char → List Char → Option Nat
  | [], needle => if needle.isEmpty then some 0 else none
  | c :: t, needle =>
    if needle.isPrefixOf (c :: t) then some 0 else (strstr t needle).map (fun k => k + 1)

/-- Model of `strncpy(str + p, src, n)` for `n = strlen(src)` inside `str`. -/
def strncpy_at (str : List Char) (p : Nat) (src : List Char) (n : Nat) : List Char :=
  str.take p ++ src.take n ++ str.drop (p + n)

/-- Model of `isalpha` in the "C" locale. -/
def isalpha (c : Char) : Bool := c.isAlpha

/-- Model of `isspace` in the "C" locale. -/
def isspace (c : Char) : Bool :=
  c = ' ' || c = '\t' || c = '\n' || c = '\x0b' || c = '\x0c' || c = '\r'

/-- The decimal value of the leading digits of a string. -/
def atoi_digits (s : List Char) : Nat :=
  (s.takeWhile Char.isDigit).foldl (fun acc c => acc * 10 + (c.toNat - 48)) 0

/-- The number a text reads as: white space, an optional sign, then digits. -/
def strtol_value (s : List Char) : Int :=
  match s.dropWhile isspace with
  | '-' :: r => - (atoi_digits r : Int)
  | '+' :: r => (atoi_digits r : Int)
  | r => (atoi_digits r : Int)

/-- Model of `strtol(s, NULL, 10)`: the number the text reads as; a value
outside the range of `long` is replaced by `LONG_MIN` or `LONG_MAX`. -/
def strtol (s : List Char) : Int :=
  if strtol_value s < -(2 ^ 63) then -(2 ^ 63)
  else if strtol_value s > 2 ^ 63 - 1 then 2 ^ 63 - 1
  else strtol_value s

/-- Model of `atoi`, which the C library defines as `(int) strtol(s, NULL, 10)`:
the value of `strtol` converted to a 32-bit `int` (two's complement).  For a
text whose value fits an `int` the result is that value; `3000000000` reads
as `-1294967296` and `4294967295` as `-1`. -/
def atoi (s : List Char) : Int := (strtol s + 2 ^ 31) % 2 ^ 32 - 2 ^ 31

/-- Whether `strtok_r` treats the character as a delimiter. -/
def is_delim (c : Char) : Bool := DELIMS.contains c

/-- Model of one call of `strtok_r(..., DELIMS, &save)` on the text that
starts at the scan position: `none` when no token is left, otherwise the
token and the new `save` position. -/
def strtok_r (s : List Char) : Option (List Char × List Char) :=
  let s1 := s.dropWhile is_delim
  if s1.isEmpty then none
  else some (s1.takeWhile (fun c => !is_delim c), (s1.dropWhile (fun c => !is_delim c)).tail)

/-- The characters `fgets` stores: at most `k` of them, stopping after a
newline; the second component is what stays unread. -/
def fgets_aux : List Char → Nat → List Char × List Char
  | [], _ => ([], [])
  | c :: r, k =>
    if k = 0 then ([], c :: r)
    else if c = '\n' then ([c], r)
    else ((c :: (fgets_aux r (k - 1)).1), (fgets_aux r (k - 1)).2)

/-- Model of `fgets(buf, size, in)`: `none` at end of file. -/
def fgets (size : Nat) (inp : List Char) : Option (List Char × List Char) :=
  if inp.isEmpty then none else some (fgets_aux inp (size - 1))

/-- The C string held by a buffer: the bytes before the first NUL. -/
def c_string (buf : List Char) : List Char := buf.takeWhile (fun c => c != '\x00')

/-! ## str_replace and cleanup_line (main.c lines 127-175) -/

/-- The `while` loop of `str_replace` (lines 139-142). -/
def str_replace_loop (old new : List Char) : Nat → List Char → Run (List Char)
  | 0, _ => .hang
  | fuel + 1, str =>
    match strstr str old with
    | none => .done str
    | some p => str_replace_loop old new fuel (strncpy_at str p new new.length)

/-- Model of `str_replace`: the text after the replacements, and the returned
length (`uint32_t`). -/
def str_replace (str old new : List Char) : Run (List Char × Nat) :=
  let sl := str.length
  let ol := old.length
  let nl := new.length
  if ol < 1 || nl < 1 || ol != nl || sl < ol then .exit (.str_replace_guard sl ol nl)
  else (str_replace_loop old new (sl + 1) str).bind (fun r => .done (r, sl % 2 ^ 32))

/-- The loop of lines 167-171 on the text at `s`: the character at `s` itself
is only tested against NUL, every later one is blanked when it is a letter. -/
def blank_alpha : List Char → List Char
  | [] => []
  | c :: r => c :: r.map (fun d => if isalpha d then REPLACE_CHAR else d)

/-- Model of `cleanup_line`: the line after the in-place edits. -/
def cleanup_line (str : List Char) : Run (List Char) :=
  let first := str.takeWhile (fun c => c != '\t')
  let s := str.dropWhile (fun c => c != '\t')
  (str_replace s "PLOT3".toList "    0".toList).bind (fun r1 =>
    (str_replace r1.1 "PLOT5".toList "    0".toList).bind (fun r2 =>
      .done (first ++ blank_alpha r2.1)))

/-! ## main: loading the table (lines 223-270) -/

/-- The variables of `main` that the reading loop updates.  `row` is `-1`
until the header line has been read.  `id` and `call` hold the entries of the
data rows read so far.  The arrays come from `calloc`, so the pointers
`id[row]` and `call[row]` of a data row whose line has no token stay NULL:
`null_rows` lists these rows, and their entries in `id` and `call` are `[]`. -/
structure Table where
  row : Int
  ncol : Nat
  id : List (List Char)
  call : List (List Nat)
  null_rows : List Nat := []
  deriving DecidableEq, Repr

/-- What the token loop of one line leaves behind: `col`, and the entries
`id[row]` and `call[row]`. -/
structure LineScan where
  col : Int
  rid : List Char
  rcall : List Nat
  deriving DecidableEq, Repr

/-- The token loop (lines 233-255) from scan position `save`.  The value
stored at line 247 is `abs(atoi(s))` converted to `uint32_t` (for `INT_MIN`,
whose `abs` does not fit an `int`, both readings give `2 ^ 31`). -/
def token_loop (row : Int) (ncol : Nat) : Nat → List Char → LineScan → Run LineScan
  | 0, _, _ => .hang
  | fuel + 1, save, st =>
    match strtok_r save with
    | none => .done st
    | some (s, save1) =>
      if row ≥ 0 then
        if st.col < 0 then
          if s.length = 0 then .exit (.empty_id (row + 1))
          else token_loop row ncol fuel save1
            { col := st.col + 1, rid := s, rcall := List.replicate ncol 0 }
        else token_loop row ncol fuel save1
          { st with col := st.col + 1,
                    rcall := st.rcall.set st.col.toNat ((atoi s).natAbs % 2 ^ 32) }
      else token_loop row ncol fuel save1 { st with col := st.col + 1 }

/-- The reading loop (lines 226-269) on the unread part of the file. -/
def load_loop : Nat → List Char → Table → Run Table
  | 0, _, _ => .hang
  | fuel + 1, inp, T =>
    match fgets MAX_LINE inp with
    | none => .done T
    | some (line, rest) =>
      (if T.row ≥ 0 then cleanup_line (c_string line) else .done (c_string line)).bind (fun buf =>
        (token_loop T.row T.ncol (buf.length + 1) buf { col := -1, rid := [], rcall := [] }).bind
          (fun sc =>
            let row := T.row + 1
            let ucol := (sc.col % 2 ^ 32).toNat
            let ncol := if row = 0 then ucol else T.ncol
            if row ≥ MAX_ASM then .exit .too_many_rows
            else if ucol ≠ ncol then .exit (.col_mismatch (row + 1) (sc.col + 1) ncol)
            else load_loop fuel rest
              { row := row, ncol := ncol,
                id := if T.row ≥ 0 then T.id ++ [sc.rid] else T.id,
                call := if T.row ≥ 0 then T.call ++ [sc.rcall] else T.call,
                null_rows :=
                  if T.row ≥ 0 ∧ sc.col < 0 then T.null_rows ++ [T.row.toNat]
                  else T.null_rows }))

/-- The table `main` holds when the reading loop ends (line 270), from the
content of the input file. -/
def load (file : List Char) : Run Table :=
  load_loop (file.length + 1) file { row := -1, ncol := 0, id := [], call := [], null_rows := [] }

/-! ## main -/

/-- The option variables of `main` after the `getopt` loop (line 181-193). -/
structure Config where
  csv : Bool
  threads : Int
  mode : Int
  maxdiff : Int

/-- Whether a worker hands a NULL row pointer to `distance` with `len > 0`.
Worker `t` calls `distance(call[j], call[i], ncol, maxdiff)` for every local
row `j < t2 - t1` and every `i < nrow` (line 107), and `distance` reads
`a[0]` and `b[0]` as soon as `len > 0` (line 74). -/
def reads_null_row (threads nrow ncol : Nat) (null_rows : List Nat) : Bool :=
  decide (0 < ncol) &&
    (List.range threads).any (fun t =>
      (List.range ((make_targs threads nrow 0 0 [] t).t2 - (make_targs threads nrow 0 0 [] t).t1)).any
        (fun j => (List.range nrow).any (fun i => null_rows.contains j || null_rows.contains i)))

/-- Model of `main` from line 203 on: what the program writes to `stdout`
for the given options and input file content.  `maxdiff` is converted to
`uint32_t` when it is stored in `struct targs`.  For an empty file `row` is
`-1` at line 270 and every loop bound of lines 284-344 is then at most `0`,
as it is for `nrow = 0`.  The workers run before anything is written: when
one of them reads through a NULL row pointer the process is killed with
nothing on `stdout`. -/
def main (cfg : Config) (file : List Char) : Run (List Char) :=
  let threads := if cfg.threads < 1 then 1 else cfg.threads.toNat
  (load file).bind (fun T =>
    if reads_null_row threads T.row.toNat T.ncol T.null_rows then .exit .segfault
    else .done (emit cfg.csv cfg.mode threads (cfg.maxdiff % 2 ^ 32).toNat
      T.id T.call T.row.toNat T.ncol))

/-! ## Notions derived from the loader -/

/-- The text `str_replace` leaves when its loop returns (the text itself
while the loop has not returned within `strlen(str) + 1` rounds). -/
def replaced (old new str : List Char) : List Char :=
  match str_replace_loop old new (str.length + 1) str with
  | .done r => r
  | _ => str

/-- The tokens `strtok_r` yields on a text, in order (at most `fuel` of them). -/
def tokens_fuel : Nat → List Char → List (List Char)
  | 0, _ => []
  | fuel + 1, s =>
    match strtok_r s with
    | none => []
    | some (tok, rest) => tok :: tokens_fuel fuel rest

/-- The tokens of a line: the non-empty fields between the delimiters. -/
def tokens (s : List Char) : List (List Char) := tokens_fuel (s.length + 1) s

/-- The value stored at line 247 for the token `s`: `abs(atoi(s))` as a
`uint32_t`. -/
def allele_code (s : List Char) : Nat := (atoi s).natAbs % 2 ^ 32

/-- The body of the token loop (lines 236-253) for one token of a data row. -/
def store_token (ncol : Nat) (st : LineScan) (s : List Char) : LineScan :=
  if st.col < 0 then { col := st.col + 1, rid := s, rcall := List.replicate ncol 0 }
  else { st with col := st.col + 1, rcall := st.rcall.set st.col.toNat (allele_code s) }

/-- Lines 229-255 for one line read by `fgets`: `cleanup_line` on a data
line, then the token loop. -/
def scan_line (row : Int) (ncol : Nat) (line : List Char) : Run LineScan :=
  (if row ≥ 0 then cleanup_line (c_string line) else .done (c_string line)).bind (fun buf =>
    token_loop row ncol (buf.length + 1) buf { col := -1, rid := [], rcall := [] })

/-- What `cleanup_line` makes of a text that follows the first tab of a data
line: `PLOT3` and `PLOT5` replaced, then every letter blanked. -/
def clean_text (s : List Char) : List Char :=
  (replaced "PLOT5".toList "    0".toList (replaced "PLOT3".toList "    0".toList s)).map
    (fun d => if isalpha d then REPLACE_CHAR else d)

/-- The lines `fgets` hands to the reading loop, in order (at most `fuel`). -/
def read_lines : Nat → List Char → List (List Char)
  | 0, _ => []
  | fuel + 1, inp =>
    match fgets MAX_LINE inp with
    | none => []
    | some (line, rest) => line :: read_lines fuel rest

/-- The lines of a file as the reading loop sees them. -/
def file_lines (file : List Char) : List (List Char) := read_lines (file.length + 1) file

theorem distance_loop_eq_min (a b : List Nat) (m : Nat) (hm : m < 2 ^ 32) :
    ∀ (n i d : Nat), d ≤ m → (d < m ∨ d = 0) →
      distance_loop a b m n i d = min (d + mismatch_from a b n i) m := by
  intro n
  induction n with
  | zero =>
    intro i d hd _
    simp [distance_loop, mismatch_from, hd]
  | succ n ih =>
    intro i d hd hd2
    unfold distance_loop mismatch_from
    cases hmis : mismatch a b i with
    | true =>
      have h1 : (d + 1) % 2 ^ 32 = d + 1 := by
        apply Nat.mod_eq_of_lt
        omega
      simp only [if_true, h1]
      by_cases hge : d + 1 ≥ m
      · simp only [hge, if_true]
        omega
      · simp only [hge, if_false]
        rw [ih (i + 1) (d + 1) (by omega) (by omega)]
        omega
    | false =>
      simp only [Bool.false_eq_true, if_false]
      rw [ih (i + 1) d hd hd2]
      omega

theorem mismatch_cons (x y : Nat) (a b : List Nat) (i : Nat) :
    mismatch (x :: a) (y :: b) (i + 1) = mismatch a b i := by
  simp [mismatch, List.getD]

theorem mismatch_from_cons (x y : Nat) (a b : List Nat) :
    ∀ (n i : Nat), mismatch_from (x :: a) (y :: b) n (i + 1) = mismatch_from a b n i := by
  intro n
  induction n with
  | zero => intro i; rfl
  | succ n ih =>
    intro i
    simp only [mismatch_from, mismatch_cons, ih]

theorem mismatch_from_eq_count :
    ∀ (a b : List Nat), a.length = b.length →
      mismatch_from a b a.length 0 = mismatch_count a b := by
  intro a
  induction a with
  | nil => intro b _; simp [mismatch_from, mismatch_count]
  | cons x a ih =>
    intro b hlen
    cases b with
    | nil => simp at hlen
    | cons y b =>
      have hlen2 : a.length = b.length := by simpa using hlen
      simp only [List.length_cons, mismatch_from, mismatch_from_cons, ih b hlen2]
      simp only [mismatch_count, List.zip_cons_cons, List.countP_cons]
      by_cases h : mismatch (x :: a) (y :: b) 0 = true
      · have h2 : (x ≠ y ∧ x ≠ 0 ∧ y ≠ 0) := by
          simpa [mismatch, IGNORE_ALLELE, and_assoc] using h
        simp [h, h2]
        omega
      · have h2 : ¬ (x ≠ y ∧ x ≠ 0 ∧ y ≠ 0) := by
          simpa [mismatch, IGNORE_ALLELE, and_assoc] using h
        simp only [h]
        simp [h2]

theorem distance_eq_min (a b : List Nat) (m : Nat) (hlen : a.length = b.length)
    (hm : m < 2 ^ 32) : distance a b a.length m = min (mismatch_count a b) m := by
  unfold distance
  rw [distance_loop_eq_min a b m hm a.length 0 0 (Nat.zero_le m) (Or.inr rfl),
    mismatch_from_eq_count a b hlen, Nat.zero_add]

/-- The loop of `distance` reads the two sequences only through the test of
line 74. -/
theorem distance_loop_congr (a b a1 b1 : List Nat) (m : Nat) :
    ∀ (n i d : Nat), (∀ p, i ≤ p → p < i + n → mismatch a b p = mismatch a1 b1 p) →
      distance_loop a b m n i d = distance_loop a1 b1 m n i d := by
  intro n
  induction n with
  | zero => intro i d _; rfl
  | succ n ih =>
    intro i d h
    unfold distance_loop
    have e1 := ih (i + 1) d (fun p hp1 hp2 => h p (by omega) (by omega))
    have e2 := ih (i + 1) ((d + 1) % 2 ^ 32) (fun p hp1 hp2 => h p (by omega) (by omega))
    simp only [h i (Nat.le_refl i) (by omega), e1, e2]

theorem mismatch_comm (a b : List Nat) (p : Nat) : mismatch a b p = mismatch b a p := by
  unfold mismatch
  rw [Bool.eq_iff_iff]
  simp only [Bool.and_eq_true, bne_iff_ne]
  constructor
  · rintro ⟨⟨h1, h2⟩, h3⟩
    exact ⟨⟨fun h => h1 h.symm, h3⟩, h2⟩
  · rintro ⟨⟨h1, h2⟩, h3⟩
    exact ⟨⟨fun h => h1 h.symm, h3⟩, h2⟩

theorem mismatch_self (a : List Nat) (p : Nat) : mismatch a a p = false := by
  simp [mismatch]

theorem distance_loop_self (a : List Nat) (m : Nat) :
    ∀ (n i d : Nat), distance_loop a a m n i d = d := by
  intro n
  induction n with
  | zero => intro i d; rfl
  | succ n ih =>
    intro i d
    unfold distance_loop
    simp [mismatch_self, ih]

theorem distance_self (a : List Nat) (len m : Nat) : distance a a len m = 0 :=
  distance_loop_self a m len 0 0

theorem mismatch_of_left_zero (a b : List Nat) (p : Nat) (h : a.getD p 0 = 0) :
    mismatch a b p = false := by
  unfold mismatch
  rw [h]
  simp [IGNORE_ALLELE]

theorem mismatch_of_right_zero (a b : List Nat) (p : Nat) (h : b.getD p 0 = 0) :
    mismatch a b p = false := by
  unfold mismatch
  rw [h]
  simp [IGNORE_ALLELE]

theorem getD_set_of_ne (l : List Nat) (i p v : Nat) (h : i ≠ p) :
    (l.set i v).getD p 0 = l.getD p 0 := by
  simp [List.getD_eq_getElem?_getD, List.getElem?_set_ne h]

theorem mismatch_set_right (a b : List Nat) (i v p : Nat) (h : a.getD i 0 = 0) :
    mismatch a (b.set i v) p = mismatch a b p := by
  by_cases hip : i = p
  · subst hip
    rw [mismatch_of_left_zero a _ i h, mismatch_of_left_zero a b i h]
  · unfold mismatch
    rw [getD_set_of_ne b i p v hip]

theorem mismatch_set_left (a b : List Nat) (i v p : Nat) (h : b.getD i 0 = 0) :
    mismatch (a.set i v) b p = mismatch a b p := by
  by_cases hip : i = p
  · subst hip
    rw [mismatch_of_right_zero _ b i h, mismatch_of_right_zero a b i h]
  · unfold mismatch
    rw [getD_set_of_ne a i p v hip]

/-! ## Lemmas on the work partition -/

theorem argset_length (P N c m : Nat) (call : List (List Nat)) :
    (argset P N c m call).length = P := by
  simp [argset]

theorem argset_getD (P N c m : Nat) (call : List (List Nat)) (t : Nat) (h : t < P) :
    (argset P N c m call).getD t default = make_targs P N c m call t := by
  simp [argset, List.getD_eq_getElem?_getD, List.getElem?_map, List.getElem?_range h]

theorem make_targs_t1 (P N c m : Nat) (call : List (List Nat)) (t : Nat) :
    (make_targs P N c m call t).t1 = t * (N / P) := rfl

theorem make_targs_t2 (P N c m : Nat) (call : List (List Nat)) (t : Nat) :
    (make_targs P N c m call t).t2 =
      if t = P - 1 then (t + 1) * (N / P) + N % P else (t + 1) * (N / P) := rfl

theorem make_targs_t2_last (P N c m : Nat) (call : List (List Nat)) (hP : 1 ≤ P) :
    (make_targs P N c m call (P - 1)).t2 = N := by
  rw [make_targs_t2, if_pos rfl]
  have h1 : P - 1 + 1 = P := by omega
  rw [h1]
  exact Nat.div_add_mod N P

theorem make_targs_t2_inner (P N c m : Nat) (call : List (List Nat)) (t : Nat)
    (h : t + 1 < P) : (make_targs P N c m call t).t2 = (t + 1) * (N / P) := by
  rw [make_targs_t2, if_neg (by omega)]

theorem work_ranges_getD (P N t : Nat) (h : t < P) :
    (work_ranges P N).getD t (0, 0) = (t * (N / P), (make_targs P N 0 0 [] t).t2) := by
  simp [work_ranges, argset, List.getD_eq_getElem?_getD, List.getElem?_map,
    List.getElem?_range h, make_targs_t1]

theorem work_ranges_getD_inner (P N t : Nat) (h : t + 1 < P) :
    (work_ranges P N).getD t (0, 0) = (t * (N / P), (t + 1) * (N / P)) := by
  rw [work_ranges_getD P N t (by omega), make_targs_t2_inner P N 0 0 [] t h]

theorem work_ranges_getD_last (P N : Nat) (hP : 1 ≤ P) :
    (work_ranges P N).getD (P - 1) (0, 0) = ((P - 1) * (N / P), N) := by
  rw [work_ranges_getD P N (P - 1) (by omega), make_targs_t2_last P N 0 0 [] hP]

theorem inner_total_le (P N : Nat) (hP : 1 ≤ P) : (P - 1) * (N / P) ≤ N := by
  calc (P - 1) * (N / P) ≤ P * (N / P) := Nat.mul_le_mul_right _ (by omega)
    _ ≤ N := Nat.mul_div_le N P

/-- The size of every worker's range is at most the number of rows. -/
theorem make_targs_size_le (P N c m : Nat) (call : List (List Nat)) (t : Nat)
    (h : t < P) : (make_targs P N c m call t).t2 - (make_targs P N c m call t).t1 ≤ N := by
  by_cases hl : t + 1 < P
  · rw [make_targs_t2_inner P N c m call t hl, make_targs_t1, Nat.add_mul, Nat.one_mul,
      Nat.add_sub_cancel_left]
    exact Nat.div_le_self N P
  · have ht : t = P - 1 := by omega
    subst ht
    rw [make_targs_t2_last P N c m call (by omega)]
    omega

/-! ## Lemmas on thread_function -/

theorem getD_set_eq_ite (l : List Nat) (i p v : Nat) :
    (l.set i v).getD p 0 = if i = p ∧ i < l.length then v else l.getD p 0 := by
  simp only [List.getD_eq_getElem?_getD, List.getElem?_set]
  by_cases h1 : i = p
  · subst h1
    by_cases h2 : i < l.length
    · simp [h2]
    · have h3 : l.length ≤ i := by omega
      simp [h2, List.getElem?_eq_none h3]
  · simp [h1]

/-- Storing `g 0, g 1, ..., g (n-1)` at `base, base+1, ...` inside a buffer. -/
theorem foldl_set_range (g : Nat → Nat) (base : Nat) :
    ∀ (n : Nat) (d : List Nat), base + n ≤ d.length →
      ((List.range n).foldl (fun d i => d.set (base + i) (g i)) d).length = d.length ∧
      ∀ p, ((List.range n).foldl (fun d i => d.set (base + i) (g i)) d).getD p 0 =
        if base ≤ p ∧ p < base + n then g (p - base) else d.getD p 0 := by
  intro n
  induction n with
  | zero =>
    intro d _
    refine ⟨rfl, fun p => ?_⟩
    have : ¬ (base ≤ p ∧ p < base + 0) := by omega
    simp only [List.range_zero, List.foldl_nil, if_neg this]
  | succ n ih =>
    intro d hd
    obtain ⟨hlen, hget⟩ := ih d (by omega)
    rw [List.range_succ, List.foldl_append]
    simp only [List.foldl_cons, List.foldl_nil]
    refine ⟨by rw [List.length_set, hlen], fun p => ?_⟩
    rw [getD_set_eq_ite, hlen, hget p]
    by_cases hp : base + n = p
    · have h1 : base + n = p ∧ base + n < d.length := ⟨hp, by omega⟩
      have h2 : base ≤ p ∧ p < base + (n + 1) := by omega
      rw [if_pos h1, if_pos h2]
      congr 1
      omega
    · have h1 : ¬ (base + n = p ∧ base + n < d.length) := fun h => hp h.1
      rw [if_neg h1]
      by_cases h2 : base ≤ p ∧ p < base + n
      · have h3 : base ≤ p ∧ p < base + (n + 1) := by omega
        rw [if_pos h2, if_pos h3]
      · have h3 : ¬ (base ≤ p ∧ p < base + (n + 1)) := by omega
        rw [if_neg h2, if_neg h3]

/-- The value line 107 computes for local row `j` and column `i`. -/
theorem thread_row_spec (values : targs) (dist : List Nat) (j : Nat)
    (h : j * values.nrow + values.nrow ≤ dist.length) :
    (thread_row values dist j).length = dist.length ∧
    ∀ p, (thread_row values dist j).getD p 0 =
      if j * values.nrow ≤ p ∧ p < j * values.nrow + values.nrow then
        distance (values.call.getD j []) (values.call.getD (p - j * values.nrow) [])
          values.ncol values.maxdiff
      else dist.getD p 0 :=
  foldl_set_range
    (fun i => distance (values.call.getD j []) (values.call.getD i []) values.ncol values.maxdiff)
    (j * values.nrow) values.nrow dist h

theorem thread_rows_spec (values : targs) :
    ∀ (J : Nat) (d : List Nat), J * values.nrow ≤ d.length →
      ((List.range J).foldl (thread_row values) d).length = d.length ∧
      ∀ j i, j < J → i < values.nrow →
        ((List.range J).foldl (thread_row values) d).getD (j * values.nrow + i) 0 =
          distance (values.call.getD j []) (values.call.getD i []) values.ncol values.maxdiff := by
  intro J
  induction J with
  | zero =>
    intro d _
    exact ⟨rfl, fun j i hj _ => absurd hj (Nat.not_lt_zero j)⟩
  | succ J ih =>
    intro d hd
    have hJ : (J + 1) * values.nrow = J * values.nrow + values.nrow := by
      rw [Nat.add_mul, Nat.one_mul]
    obtain ⟨hlen, hget⟩ := ih d (by omega)
    rw [List.range_succ, List.foldl_append]
    simp only [List.foldl_cons, List.foldl_nil]
    obtain ⟨hlen2, hget2⟩ := thread_row_spec values
      ((List.range J).foldl (thread_row values) d) J (by omega)
    refine ⟨by rw [hlen2, hlen], fun j i hj hi => ?_⟩
    rw [hget2]
    by_cases hjJ : j = J
    · subst hjJ
      have h1 : j * values.nrow ≤ j * values.nrow + i ∧
          j * values.nrow + i < j * values.nrow + values.nrow := by omega
      rw [if_pos h1, Nat.add_sub_cancel_left]
    · have hlt : j < J := by omega
      have h2 : (j + 1) * values.nrow ≤ J * values.nrow := Nat.mul_le_mul_right _ hlt
      rw [Nat.add_mul, Nat.one_mul] at h2
      have h1 : ¬ (J * values.nrow ≤ j * values.nrow + i ∧
          j * values.nrow + i < J * values.nrow + values.nrow) := by omega
      rw [if_neg h1]
      exact hget j i hlt hi

/-- What a worker leaves in its buffer: entry `j * nrow + i` is the distance
between the samples `call[j]` and `call[i]`. -/
theorem thread_function_getD (values : targs)
    (hbuf : values.dist.length = (values.t2 - values.t1) * values.nrow)
    (j i : Nat) (hj : j < values.t2 - values.t1) (hi : i < values.nrow) :
    (thread_function values).getD (j * values.nrow + i) 0 =
      distance (values.call.getD j []) (values.call.getD i []) values.ncol values.maxdiff :=
  (thread_rows_spec values (values.t2 - values.t1) values.dist (by omega)).2 j i hj hi

theorem make_targs_dist_length (P N c m : Nat) (call : List (List Nat)) (t : Nat) :
    (make_targs P N c m call t).dist.length =
      ((make_targs P N c m call t).t2 - (make_targs P N c m call t).t1) *
        (make_targs P N c m call t).nrow := by
  simp [make_targs]

theorem dist_list_getD (P N c m : Nat) (call : List (List Nat)) (t : Nat) (h : t < P) :
    (dist_list P N c m call).getD t [] = thread_function (make_targs P N c m call t) := by
  simp [dist_list, argset, List.getD_eq_getElem?_getD, List.getElem?_map,
    List.getElem?_range h]

/-- The entry of `dist_list[t]` that the output loop reads for local row `j`
and column `i`. -/
theorem dist_list_entry (P N c m : Nat) (call : List (List Nat)) (t j i : Nat) (ht : t < P)
    (hj : j < (make_targs P N c m call t).t2 - (make_targs P N c m call t).t1) (hi : i < N) :
    ((dist_list P N c m call).getD t []).getD (j * N + i) 0 =
      distance (call.getD j []) (call.getD i []) c m := by
  rw [dist_list_getD P N c m call t ht]
  exact thread_function_getD (make_targs P N c m call t)
    (make_targs_dist_length P N c m call t) j i hj hi

/-! ## Lemmas on the matrix loops -/

theorem make_targs_size_indep (P N c m : Nat) (call : List (List Nat)) (t : Nat) :
    (make_targs P N c m call t).t2 - (make_targs P N c m call t).t1 =
      (make_targs P N 0 0 [] t).t2 - (make_targs P N 0 0 [] t).t1 := rfl

/-- The matrix loops visit the pairs of `row_index` and print one row for
each of them. -/
theorem matrix_rows_eq_map (mode : Int) (id : List (List Char)) (P N c m : Nat)
    (call : List (List Nat)) (dists : List (List Nat)) :
    matrix_rows mode id P N (argset P N c m call) dists =
      (row_index P N).map (fun tj =>
        { ident := id.getD (tj.1 * (N / P) + tj.2) [],
          cells := (row_cols mode tj.2 N).map
            (fun i => (dists.getD tj.1 []).getD (tj.2 * N + i) 0) }) := by
  unfold matrix_rows row_index
  rw [List.map_flatMap]
  apply List.flatMap_congr
  intro t ht
  have htP : t < P := List.mem_range.mp ht
  simp only [argset_getD P N c m call t htP, List.map_map, make_targs_size_indep P N c m call t]
  rfl

theorem mem_row_index (P N t j : Nat) (h : (t, j) ∈ row_index P N) :
    t < P ∧ j < (make_targs P N 0 0 [] t).t2 - (make_targs P N 0 0 [] t).t1 := by
  unfold row_index at h
  rw [List.mem_flatMap] at h
  obtain ⟨u, hu, hmem⟩ := h
  rw [List.mem_map] at hmem
  obtain ⟨k, hk, heq⟩ := hmem
  have h1 : u = t := congrArg Prod.fst heq
  have h2 : k = j := congrArg Prod.snd heq
  subst h1 h2
  exact ⟨List.mem_range.mp hu, List.mem_range.mp hk⟩

theorem flatMap_inner_ranges (q : Nat) :
    ∀ k : Nat, (List.range k).flatMap (fun t => List.range' (t * q) q) = List.range' 0 (k * q) := by
  intro k
  induction k with
  | zero => simp
  | succ k ih =>
    rw [List.range_succ, List.flatMap_append, ih, List.flatMap_singleton, Nat.add_mul,
      Nat.one_mul]
    have h := List.range'_append_1 0 (k * q) q
    rw [Nat.zero_add] at h
    rw [h, Nat.add_comm]

/-- The rows are visited in load order: the index `t * interval + j` used at
line 336 runs through `0, 1, ..., nrow - 1`. -/
theorem row_index_global (P N : Nat) (hP : 1 ≤ P) :
    (row_index P N).map (fun tj => tj.1 * (N / P) + tj.2) = List.range N := by
  unfold row_index
  rw [List.map_flatMap]
  have hstep : ∀ t ∈ List.range P,
      List.map (fun tj : Nat × Nat => tj.1 * (N / P) + tj.2)
        ((List.range ((make_targs P N 0 0 [] t).t2 - (make_targs P N 0 0 [] t).t1)).map
          (fun j => (t, j))) =
      List.range' (t * (N / P))
        ((make_targs P N 0 0 [] t).t2 - (make_targs P N 0 0 [] t).t1) := by
    intro t _
    rw [List.map_map, List.range'_eq_map_range]
    rfl
  rw [List.flatMap_congr hstep]
  obtain ⟨k, hk⟩ : ∃ k, P = k + 1 := ⟨P - 1, by omega⟩
  subst hk
  rw [List.range_succ, List.flatMap_append, List.flatMap_singleton]
  have hinner : ∀ t ∈ List.range k,
      List.range' (t * (N / (k + 1)))
        ((make_targs (k + 1) N 0 0 [] t).t2 - (make_targs (k + 1) N 0 0 [] t).t1) =
      List.range' (t * (N / (k + 1))) (N / (k + 1)) := by
    intro t ht
    have htk : t < k := List.mem_range.mp ht
    rw [make_targs_t2_inner (k + 1) N 0 0 [] t (by omega), make_targs_t1, Nat.add_mul,
      Nat.one_mul, Nat.add_sub_cancel_left]
  rw [List.flatMap_congr hinner, flatMap_inner_ranges]
  have hlast := make_targs_t2_last (k + 1) N 0 0 [] (by omega)
  simp only [Nat.add_sub_cancel] at hlast
  rw [hlast, make_targs_t1]
  have hle := inner_total_le (k + 1) N (by omega)
  simp only [Nat.add_sub_cancel] at hle
  have h := List.range'_append_1 0 (k * (N / (k + 1))) (N - k * (N / (k + 1)))
  rw [Nat.zero_add] at h
  rw [h, List.range_eq_range']
  congr 1
  omega

theorem row_cols_mode1 (j N : Nat) : row_cols 1 j N = List.range' 0 (j + 1) := by
  have h0 : (1 : Int).testBit 0 = true := by decide
  have h1 : (1 : Int).testBit 1 = false := by decide
  simp [row_cols, row_start, row_end, h0, h1]

theorem row_cols_mode2 (j N : Nat) : row_cols 2 j N = List.range' j (N - j) := by
  have h0 : (2 : Int).testBit 0 = false := by decide
  have h1 : (2 : Int).testBit 1 = true := by decide
  simp [row_cols, row_start, row_end, h0, h1]

theorem row_cols_mode3 (j N : Nat) : row_cols 3 j N = List.range' 0 N := by
  have h0 : (3 : Int).testBit 0 = true := by decide
  have h1 : (3 : Int).testBit 1 = true := by decide
  simp [row_cols, row_start, row_end, h0, h1]

theorem row_cols_split (j N : Nat) (h : j < N) :
    row_cols 3 j N = row_cols 1 j N ++ (row_cols 2 j N).tail := by
  rw [row_cols_mode1, row_cols_mode2, row_cols_mode3, List.tail_range']
  have h1 := List.range'_append_1 0 (j + 1) (N - j - 1)
  rw [Nat.zero_add] at h1
  rw [h1]
  congr 1
  omega

theorem zipWith_map_same {α β γ δ : Type} (f : β → γ → δ) (g : α → β) (h : α → γ) :
    ∀ l : List α, List.zipWith f (l.map g) (l.map h) = l.map (fun x => f (g x) (h x)) := by
  intro l
  induction l with
  | nil => rfl
  | cons x l ih => simp [ih]

/-! ## Claims on distance -/

/-- C1: for sequences `a`, `b` of the same length `L` and a cap `m` (a
`uint32_t`), with `k` the number of positions where the codes differ and
both are non-zero, `distance` returns `k` when `m > k` and `m` when `m ≤ k`,
that is `min k m`; it returns `0` when `L = 0` and when `m = 0`. -/
theorem distance_capped_count (a b : List Nat) (L m : Nat)
    (ha : a.length = L) (hb : b.length = L) (hm : m < 2 ^ 32) :
    (m > mismatch_count a b → distance a b L m = mismatch_count a b) ∧
    (m ≤ mismatch_count a b → distance a b L m = m) ∧
    distance a b L m = min (mismatch_count a b) m ∧
    (L = 0 → distance a b L m = 0) ∧
    (m = 0 → distance a b L m = 0) := by
  have hlen : a.length = b.length := by rw [ha, hb]
  have h := distance_eq_min a b m hlen hm
  rw [ha] at h
  refine ⟨?_, ?_, h, ?_, ?_⟩
  · intro hk; rw [h]; omega
  · intro hk; rw [h]; omega
  · intro hL; subst hL; rfl
  · intro h0; rw [h, h0]; simp

/-- Witness of C1: five differing positions with cap 3 give 3. -/
theorem distance_capped_count_witness :
    ([1, 2, 3, 4, 5] : List Nat).length = 5 ∧ ([2, 3, 4, 5, 6] : List Nat).length = 5 ∧
    3 < 2 ^ 32 ∧ 3 ≤ mismatch_count [1, 2, 3, 4, 5] [2, 3, 4, 5, 6] ∧
    distance [1, 2, 3, 4, 5] [2, 3, 4, 5, 6] 5 3 = 3 :=
  ⟨rfl, rfl, by decide, by decide,
    (distance_capped_count [1, 2, 3, 4, 5] [2, 3, 4, 5, 6] 5 3 rfl rfl (by decide)).2.1
      (by decide)⟩

/-- C7: `distance` is symmetric in its two sequences, for every length and
every cap. -/
theorem distance_symm (a b : List Nat) (L m : Nat) :
    distance a b L m = distance b a L m :=
  distance_loop_congr a b b a m L 0 0 (fun p _ _ => mismatch_comm a b p)

/-- C9: at a position where one sequence holds `0`, replacing the code of
the other sequence by any value leaves `distance` unchanged; and
`distance([0,5], [3,5], 2, m) = 0` for every cap. -/
theorem distance_wildcard_invariant (a b : List Nat) (L m i v : Nat) :
    (a.getD i 0 = 0 → distance a (b.set i v) L m = distance a b L m) ∧
    (b.getD i 0 = 0 → distance (a.set i v) b L m = distance a b L m) ∧
    distance [0, 5] [3, 5] 2 m = 0 := by
  refine ⟨?_, ?_, ?_⟩
  · intro h
    exact distance_loop_congr a (b.set i v) a b m L 0 0
      (fun p _ _ => mismatch_set_right a b i v p h)
  · intro h
    exact distance_loop_congr (a.set i v) b a b m L 0 0
      (fun p _ _ => mismatch_set_left a b i v p h)
  · simp [distance, distance_loop, mismatch, IGNORE_ALLELE]

/-- Witness of C9: the missing code at position 0 of `[0,5]` hides any code
of the other sequence there. -/
theorem distance_wildcard_invariant_witness :
    ([0, 5] : List Nat).getD 0 0 = 0 ∧
    distance [0, 5] ([3, 5].set 0 7) 2 9999 = distance [0, 5] [3, 5] 2 9999 ∧
    distance ([3, 5].set 0 7) [0, 5] 2 9999 = distance [3, 5] [0, 5] 2 9999 :=
  ⟨rfl, (distance_wildcard_invariant [0, 5] [3, 5] 2 9999 0 7).1 rfl,
    (distance_wildcard_invariant [3, 5] [0, 5] 2 9999 0 7).2.1 rfl⟩

/-! ## Claim on the work partition -/

/-- C3: for `N ≥ 0` rows and `P ≥ 1` threads the ranges built by the dispatch
loop are `[t*(N/P), (t+1)*(N/P))` for `t < P-1` and `[(P-1)*(N/P), N)` for the
last thread; consecutive ranges touch, a range ends before every later one
starts, every row index below `N` lies in exactly one range, no range reaches beyond `N`, all ranges but the last have
size `N/P` and the last has size `N/P + N%P`. -/
theorem work_ranges_partition (N P : Nat) (hP : 1 ≤ P) :
    (work_ranges P N).length = P ∧
    (∀ t, t + 1 < P → (work_ranges P N).getD t (0, 0) = (t * (N / P), (t + 1) * (N / P))) ∧
    (work_ranges P N).getD (P - 1) (0, 0) = ((P - 1) * (N / P), N) ∧
    ((work_ranges P N).getD 0 (0, 0)).1 = 0 ∧
    (∀ t, t + 1 < P →
      ((work_ranges P N).getD t (0, 0)).2 = ((work_ranges P N).getD (t + 1) (0, 0)).1) ∧
    (∀ t u, t < u → u < P →
      ((work_ranges P N).getD t (0, 0)).2 ≤ ((work_ranges P N).getD u (0, 0)).1) ∧
    (∀ x, x < N → ∃! t, t < P ∧
      ((work_ranges P N).getD t (0, 0)).1 ≤ x ∧ x < ((work_ranges P N).getD t (0, 0)).2) ∧
    (∀ t x, t < P → ((work_ranges P N).getD t (0, 0)).1 ≤ x →
      x < ((work_ranges P N).getD t (0, 0)).2 → x < N) ∧
    (∀ t, t + 1 < P →
      ((work_ranges P N).getD t (0, 0)).2 - ((work_ranges P N).getD t (0, 0)).1 = N / P) ∧
    ((work_ranges P N).getD (P - 1) (0, 0)).2 - ((work_ranges P N).getD (P - 1) (0, 0)).1 =
      N / P + N % P := by
  have hdm : P * (N / P) + N % P = N := Nat.div_add_mod N P
  have hsplit : P * (N / P) = (P - 1) * (N / P) + N / P := by
    have h1 : P = (P - 1) + 1 := by omega
    calc P * (N / P) = ((P - 1) + 1) * (N / P) := by rw [← h1]
      _ = (P - 1) * (N / P) + N / P := by rw [Nat.add_mul, Nat.one_mul]
  have hle := inner_total_le P N hP
  have hin : ∀ t, t + 1 < P → ((work_ranges P N).getD t (0, 0)) =
      (t * (N / P), (t + 1) * (N / P)) := fun t ht => work_ranges_getD_inner P N t ht
  have hlast := work_ranges_getD_last P N hP
  -- a range ends before every later range starts
  have hsep : ∀ t u, t < u → u < P →
      ((work_ranges P N).getD t (0, 0)).2 ≤ ((work_ranges P N).getD u (0, 0)).1 := by
    intro t u htu huP
    rw [hin t (by omega), work_ranges_getD P N u huP]
    exact Nat.mul_le_mul_right _ htu
  refine ⟨?_, ?_, ?_, ?_, ?_, hsep, ?_, ?_, ?_, ?_⟩
  · simp [work_ranges, argset]
  · intro t ht
    exact work_ranges_getD_inner P N t ht
  · exact work_ranges_getD_last P N hP
  · rw [work_ranges_getD P N 0 (by omega)]
    simp
  · intro t ht
    rw [work_ranges_getD_inner P N t ht, work_ranges_getD P N (t + 1) ht]
  · intro x hx
    have huniq : ∀ t u, t < P → u < P →
        ((work_ranges P N).getD t (0, 0)).1 ≤ x → x < ((work_ranges P N).getD t (0, 0)).2 →
        ((work_ranges P N).getD u (0, 0)).1 ≤ x → x < ((work_ranges P N).getD u (0, 0)).2 →
        u = t := by
      intro t u ht hu h1 h2 h3 h4
      rcases Nat.lt_trichotomy t u with hlt | heq | hgt
      · have := hsep t u hlt hu
        omega
      · exact heq.symm
      · have := hsep u t hgt ht
        omega
    by_cases hx1 : x < (P - 1) * (N / P)
    · have hq : 0 < N / P := by
        rcases Nat.eq_zero_or_pos (N / P) with h0 | h0
        · rw [h0] at hx1; simp at hx1
        · exact h0
      have ht : x / (N / P) < P - 1 := by
        apply Nat.div_lt_of_lt_mul
        rw [Nat.mul_comm]
        exact hx1
      have hlo : x / (N / P) * (N / P) ≤ x := Nat.div_mul_le_self x (N / P)
      have hhi : x < (x / (N / P) + 1) * (N / P) := by
        rw [Nat.mul_comm]
        exact Nat.lt_mul_div_succ x hq
      have hmem : x / (N / P) < P ∧
          ((work_ranges P N).getD (x / (N / P)) (0, 0)).1 ≤ x ∧
          x < ((work_ranges P N).getD (x / (N / P)) (0, 0)).2 := by
        rw [hin (x / (N / P)) (by omega)]
        exact ⟨by omega, hlo, hhi⟩
      exact ⟨x / (N / P), hmem,
        fun u hu => huniq _ u hmem.1 hu.1 hmem.2.1 hmem.2.2 hu.2.1 hu.2.2⟩
    · have hmem : P - 1 < P ∧
          ((work_ranges P N).getD (P - 1) (0, 0)).1 ≤ x ∧
          x < ((work_ranges P N).getD (P - 1) (0, 0)).2 := by
        rw [hlast]
        exact ⟨by omega, by simpa using hx1, hx⟩
      exact ⟨P - 1, hmem,
        fun u hu => huniq _ u hmem.1 hu.1 hmem.2.1 hmem.2.2 hu.2.1 hu.2.2⟩
  · intro t x ht h1 h2
    by_cases hl : t + 1 < P
    · rw [work_ranges_getD_inner P N t hl] at h2
      have h3 : (t + 1) * (N / P) ≤ (P - 1) * (N / P) := Nat.mul_le_mul_right _ (by omega)
      simp only at h2
      omega
    · have ht2 : t = P - 1 := by omega
      subst ht2
      rw [work_ranges_getD_last P N hP] at h2
      exact h2
  · intro t ht
    rw [work_ranges_getD_inner P N t ht]
    simp only
    rw [Nat.add_mul, Nat.one_mul, Nat.add_sub_cancel_left]
  · rw [work_ranges_getD_last P N hP]
    simp only
    omega

/-- Witness of C3: ten rows on three threads give the ranges `[0,3)`,
`[3,6)` and `[6,10)`. -/
theorem work_ranges_partition_witness :
    1 ≤ 3 ∧ work_ranges 3 10 = [(0, 3), (3, 6), (6, 10)] ∧
    (work_ranges 3 10).getD (3 - 1) (0, 0) = ((3 - 1) * (10 / 3), 10) :=
  ⟨by decide, by decide, (work_ranges_partition 10 3 (by decide)).2.2.1⟩

/-! ## Claims on the workers and the printed matrix -/

/-- C2, evaluated on the table of the specification (`S1: 1 2`, `S2: 1 3`,
`S3: 2 2`) with two threads: the second worker has the range `[1, 3)`, and
the entry for its local row 0 and column 0 is `distance(call[0], call[0]) = 0`
while the distance between global sample `t1 + 0 = 1` and sample 0 is 1; its
whole buffer holds the rows of the samples 0 and 1, not 1 and 2. -/
theorem thread_function_reads_local_row :
    ((make_targs 2 3 2 9999 [[1, 2], [1, 3], [2, 2]] 1).t1,
      (make_targs 2 3 2 9999 [[1, 2], [1, 3], [2, 2]] 1).t2) = (1, 3) ∧
    (thread_function (make_targs 2 3 2 9999 [[1, 2], [1, 3], [2, 2]] 1)).getD (0 * 3 + 0) 0 = 0 ∧
    distance ([[1, 2], [1, 3], [2, 2]].getD (1 + 0) []) ([[1, 2], [1, 3], [2, 2]].getD 0 []) 2 9999
      = 1 ∧
    thread_function (make_targs 2 3 2 9999 [[1, 2], [1, 3], [2, 2]] 1) = [0, 1, 1, 1, 0, 2] := by
  decide

/-- C4, evaluated on the table of the specification with two threads: in
mode 1 the row of `S2` (load-order index 1, first row of the second worker)
carries one value instead of two and the row of `S3` two instead of three; in
mode 2 the row of `S2` carries three values instead of two and the row of `S3`
two instead of one. -/
theorem triangle_span_uses_local_row :
    main { csv := false, threads := 2, mode := 1, maxdiff := 9999 }
        "ID\tL1\tL2\nS1\t1\t2\nS2\t1\t3\nS3\t2\t2\n".toList =
      .done "cgmlst-dists\tS1\tS2\tS3\nS1\t0\nS2\t0\nS3\t1\t0\n".toList ∧
    main { csv := false, threads := 2, mode := 2, maxdiff := 9999 }
        "ID\tL1\tL2\nS1\t1\t2\nS2\t1\t3\nS3\t2\t2\n".toList =
      .done "cgmlst-dists\tS1\tS2\tS3\nS1\t0\t1\t1\nS2\t0\t1\t1\nS3\t0\t2\n".toList := by
  decide

theorem range_map_getD {α : Type} (d : α) :
    ∀ l : List α, (List.range l.length).map (fun r => l.getD r d) = l := by
  intro l
  apply List.ext_getElem
  · simp
  · intro n h1 h2
    simp [List.getD_eq_getElem?_getD, List.getElem?_eq_getElem h2]

/-- C5: for every `N` and every thread count `P ≥ 1` (and every mode) the
matrix loops print exactly `N` rows, and the identifier that opens the `r`-th
of them is `id[r]`: the rows come in load order whatever the partition. -/
theorem matrix_rows_load_order (mode : Int) (id : List (List Char)) (P N c m : Nat)
    (call : List (List Nat)) (hP : 1 ≤ P) :
    (matrix_rows mode id P N (argset P N c m call) (dist_list P N c m call)).length = N ∧
    (matrix_rows mode id P N (argset P N c m call) (dist_list P N c m call)).map OutRow.ident =
      (List.range N).map (fun r => id.getD r []) ∧
    (id.length = N →
      (matrix_rows mode id P N (argset P N c m call) (dist_list P N c m call)).map OutRow.ident
        = id) := by
  have hmap : (matrix_rows mode id P N (argset P N c m call) (dist_list P N c m call)).map
      OutRow.ident = (List.range N).map (fun r => id.getD r []) := by
    rw [matrix_rows_eq_map, List.map_map, ← row_index_global P N hP, List.map_map]
    rfl
  refine ⟨?_, hmap, ?_⟩
  · have h := congrArg List.length hmap
    simpa using h
  · intro hlen
    rw [hmap, ← hlen]
    exact range_map_getD [] id

/-- Witness of C5: three samples on two threads. -/
theorem matrix_rows_load_order_witness :
    1 ≤ 2 ∧
    (matrix_rows 1 ["S1".toList, "S2".toList, "S3".toList] 2 3
      (argset 2 3 2 9999 [[1, 2], [1, 3], [2, 2]])
      (dist_list 2 3 2 9999 [[1, 2], [1, 3], [2, 2]])).map OutRow.ident =
      ["S1".toList, "S2".toList, "S3".toList] :=
  ⟨by decide,
    (matrix_rows_load_order 1 ["S1".toList, "S2".toList, "S3".toList] 2 3 2 9999
      [[1, 2], [1, 3], [2, 2]] (by decide)).2.2 rfl⟩

/-- C8: `distance(a, a, L, m) = 0` for every sequence, length and cap.  The
entry (row `g`, column `g`) of the matrix is such a self-comparison only for
the rows of the first worker.  Evaluated on the table of the specification
with two threads: the second worker has the range `[1, 3)` and, as line 107
reads `call[j]` with the local row `j`, its entries for (row 1, column 1) and
(row 2, column 2) are `distance(call[0], call[1]) = 1` and
`distance(call[1], call[2]) = 2`; the zeros of its buffer are at the columns
0 and 1; the program prints the diagonal 0, 1, 2. -/
theorem self_entry_of_later_worker :
    (∀ (a : List Nat) (L m : Nat), distance a a L m = 0) ∧
    ((make_targs 2 3 2 9999 [[1, 2], [1, 3], [2, 2]] 1).t1,
      (make_targs 2 3 2 9999 [[1, 2], [1, 3], [2, 2]] 1).t2) = (1, 3) ∧
    (thread_function (make_targs 2 3 2 9999 [[1, 2], [1, 3], [2, 2]] 1)).getD (0 * 3 + (1 + 0)) 0
      = 1 ∧
    (thread_function (make_targs 2 3 2 9999 [[1, 2], [1, 3], [2, 2]] 1)).getD (1 * 3 + (1 + 1)) 0
      = 2 ∧
    (thread_function (make_targs 2 3 2 9999 [[1, 2], [1, 3], [2, 2]] 1)).getD (0 * 3 + 0) 0 = 0 ∧
    (thread_function (make_targs 2 3 2 9999 [[1, 2], [1, 3], [2, 2]] 1)).getD (1 * 3 + 1) 0 = 0 ∧
    (thread_function (make_targs 2 3 2 9999 [[1, 2], [1, 3], [2, 2]] 0)).getD (0 * 3 + 0) 0 = 0 ∧
    main { csv := false, threads := 2, mode := 3, maxdiff := 9999 }
        "ID\tL1\tL2\nS1\t1\t2\nS2\t1\t3\nS3\t2\t2\n".toList =
      .done "cgmlst-dists\tS1\tS2\tS3\nS1\t0\t1\t1\nS2\t0\t1\t1\nS3\t1\t0\t2\n".toList :=
  ⟨distance_self, by decide, by decide, by decide, by decide, by decide, by decide, by decide⟩

/-- C10: for every table, thread count and printed row, the values printed
in mode 3 are the values printed in mode 1 followed by the values printed in
mode 2 without the first one, and the three modes print the same number of
rows.  The column the two triangular lists share is the one at the row's
index inside its worker's range, not the row's own column.  Evaluated on the
table of the specification with two threads: the row of `S2` (own column 1,
first row of the second worker) prints the column 0 alone in mode 1 and the
columns 0, 1, 2 in mode 2, so the shared column is the column of `S1`; the
row of `S3` (own column 2) shares the column 1. -/
theorem shared_column_of_later_worker :
    (∀ (id : List (List Char)) (P N c m : Nat) (call : List (List Nat)),
      (matrix_rows 3 id P N (argset P N c m call) (dist_list P N c m call)).map OutRow.cells =
        List.zipWith (fun r1 r2 => r1.cells ++ r2.cells.tail)
          (matrix_rows 1 id P N (argset P N c m call) (dist_list P N c m call))
          (matrix_rows 2 id P N (argset P N c m call) (dist_list P N c m call)) ∧
      (matrix_rows 1 id P N (argset P N c m call) (dist_list P N c m call)).length =
        (matrix_rows 3 id P N (argset P N c m call) (dist_list P N c m call)).length ∧
      (matrix_rows 2 id P N (argset P N c m call) (dist_list P N c m call)).length =
        (matrix_rows 3 id P N (argset P N c m call) (dist_list P N c m call)).length) ∧
    (matrix_rows 1 ["S1".toList, "S2".toList, "S3".toList] 2 3
        (argset 2 3 2 9999 [[1, 2], [1, 3], [2, 2]])
        (dist_list 2 3 2 9999 [[1, 2], [1, 3], [2, 2]])).map (fun r => (r.ident, r.cells)) =
      [("S1".toList, [0]), ("S2".toList, [0]), ("S3".toList, [1, 0])] ∧
    (matrix_rows 2 ["S1".toList, "S2".toList, "S3".toList] 2 3
        (argset 2 3 2 9999 [[1, 2], [1, 3], [2, 2]])
        (dist_list 2 3 2 9999 [[1, 2], [1, 3], [2, 2]])).map (fun r => (r.ident, r.cells)) =
      [("S1".toList, [0, 1, 1]), ("S2".toList, [0, 1, 1]), ("S3".toList, [0, 2])] ∧
    (matrix_rows 3 ["S1".toList, "S2".toList, "S3".toList] 2 3
        (argset 2 3 2 9999 [[1, 2], [1, 3], [2, 2]])
        (dist_list 2 3 2 9999 [[1, 2], [1, 3], [2, 2]])).map (fun r => (r.ident, r.cells)) =
      [("S1".toList, [0, 1, 1]), ("S2".toList, [0, 1, 1]), ("S3".toList, [1, 0, 2])] ∧
    row_index 2 3 = [(0, 0), (1, 0), (1, 1)] ∧
    (row_cols 1 0 3 = [0] ∧ row_cols 2 0 3 = [0, 1, 2]) ∧
    (row_cols 1 1 3 = [0, 1] ∧ row_cols 2 1 3 = [1, 2]) := by
  refine ⟨?_, by decide, by decide, by decide, by decide, by decide, by decide⟩
  intro id P N c m call
  refine ⟨?_, ?_, ?_⟩
  · simp only [matrix_rows_eq_map]
    rw [zipWith_map_same, List.map_map]
    apply List.map_congr_left
    intro tj htj
    obtain ⟨t, j⟩ := tj
    obtain ⟨ht, hj⟩ := mem_row_index P N t j htj
    have hjN : j < N := Nat.lt_of_lt_of_le hj (make_targs_size_le P N 0 0 [] t ht)
    simp only [Function.comp, row_cols_split j N hjN, List.map_append, List.map_tail]
  · simp only [matrix_rows_eq_map, List.length_map]
  · simp only [matrix_rows_eq_map, List.length_map]

/-! ## Lemmas on the output of a single thread -/

theorem print_header_eq (sep : Char) (id : List (List Char)) (N : Nat) :
    print_header sep id N =
      (if N = 0 then [] else EXENAME ++ (List.range N).flatMap (fun j => sep :: id.getD j []))
        ++ ['\n'] := by
  cases N with
  | zero => simp [print_header]
  | succ k =>
    unfold print_header
    rw [List.range_succ_eq_map]
    simp [List.flatMap_map, List.flatMap_cons]

theorem row_index_one (N : Nat) : row_index 1 N = (List.range N).map (fun j => (0, j)) := by
  unfold row_index
  have h : (make_targs 1 N 0 0 [] 0).t2 - (make_targs 1 N 0 0 [] 0).t1 = N := by
    simp [make_targs, Nat.mod_one]
  rw [show List.range 1 = [0] from rfl, List.flatMap_singleton, h]

theorem make_targs_one_size (N c m : Nat) (call : List (List Nat)) :
    (make_targs 1 N c m call 0).t2 - (make_targs 1 N c m call 0).t1 = N := by
  simp [make_targs, Nat.mod_one]

theorem reads_null_row_nil (P N c : Nat) : reads_null_row P N c [] = false := by
  simp [reads_null_row]

/-- With one thread and mode 3 the program prints the header and then, for
every sample in load order, its identifier and its distance to every
sample. -/
theorem emit_one_thread_full (id : List (List Char)) (call : List (List Nat)) (N c m : Nat) :
    emit false 3 1 m id call N c =
      ((if N = 0 then [] else EXENAME ++ (List.range N).flatMap (fun j => '\t' :: id.getD j []))
        ++ ['\n']) ++
      (List.range N).flatMap (fun j =>
        id.getD j [] ++
        (List.range N).flatMap (fun i =>
          '\t' :: fmt_d (distance (call.getD j []) (call.getD i []) c m)) ++ ['\n']) := by
  unfold emit
  show print_header '\t' id N ++ _ = _
  rw [print_header_eq, matrix_rows_eq_map, row_index_one, List.map_map, List.map_map,
    ← List.flatMap_def]
  congr 1
  apply List.flatMap_congr
  intro j hj
  have hjN : j < N := List.mem_range.mp hj
  simp only [Function.comp, render_row, row_cols_mode3, List.flatMap_map, Nat.div_one,
    Nat.zero_mul, Nat.zero_add]
  congr 2
  rw [List.range_eq_range']
  apply List.flatMap_congr
  intro i hi
  have hiN : i < N := by
    rw [List.mem_range'_1] at hi
    omega
  rw [dist_list_entry 1 N c m call 0 j i (by decide)
    (by rw [make_targs_one_size]; exact hjN) hiN]
  rfl

/-! ## Further claims on distance -/

theorem distance_eq_min_from (a b : List Nat) (L m : Nat) (hm : m < 2 ^ 32) :
    distance a b L m = min (mismatch_from a b L 0) m := by
  unfold distance
  rw [distance_loop_eq_min a b m hm L 0 0 (Nat.zero_le m) (Or.inr rfl), Nat.zero_add]

theorem mismatch_triangle (a b c : List Nat) (i : Nat) (hb : b.getD i 0 ≠ 0) :
    (if mismatch a c i then 1 else 0) ≤
      (if mismatch a b i then 1 else 0) + (if mismatch b c i then 1 else 0) := by
  have key : ∀ x y z : Nat, y ≠ 0 →
      (if (x != z && x != IGNORE_ALLELE && z != IGNORE_ALLELE) = true then 1 else 0) ≤
        (if (x != y && x != IGNORE_ALLELE && y != IGNORE_ALLELE) = true then 1 else 0) +
          (if (y != z && y != IGNORE_ALLELE && z != IGNORE_ALLELE) = true then 1 else 0) := by
    intro x y z hy
    by_cases h1 : x = y <;> by_cases h2 : y = z <;> by_cases h3 : x = 0 <;>
      by_cases h4 : z = 0 <;> simp_all [IGNORE_ALLELE]
    split
    all_goals omega
  exact key _ _ _ hb

theorem mismatch_from_triangle (a b c : List Nat) :
    ∀ (n i : Nat), (∀ p, i ≤ p → p < i + n → b.getD p 0 ≠ 0) →
      mismatch_from a c n i ≤ mismatch_from a b n i + mismatch_from b c n i := by
  intro n
  induction n with
  | zero => intro i _; simp [mismatch_from]
  | succ n ih =>
    intro i h
    have h1 := mismatch_triangle a b c i (h i (Nat.le_refl i) (by omega))
    have h2 := ih (i + 1) (fun p hp1 hp2 => h p (by omega) (by omega))
    simp only [mismatch_from]
    omega

/-- C19: for caps `m1 ≤ m2` (as `uint32_t`), `distance` with cap `m1` is the
result with cap `m2` capped again at `m1`; so the result does not decrease
when the cap grows, never exceeds the cap, and every entry of a worker's
buffer computed with cap `m2` becomes the entry computed with cap `m1` when
it is capped at `m1`. -/
theorem distance_recap (a b : List Nat) (L m1 m2 : Nat) (h12 : m1 ≤ m2) (hm : m2 < 2 ^ 32) :
    distance a b L m1 = min (distance a b L m2) m1 ∧
    distance a b L m1 ≤ distance a b L m2 ∧
    distance a b L m1 ≤ m1 ∧
    ∀ (P N c : Nat) (call : List (List Nat)) (t j i : Nat), t < P →
      j < (make_targs P N c m1 call t).t2 - (make_targs P N c m1 call t).t1 → i < N →
      ((dist_list P N c m1 call).getD t []).getD (j * N + i) 0 =
        min (((dist_list P N c m2 call).getD t []).getD (j * N + i) 0) m1 := by
  have key : ∀ (x y : List Nat) (len : Nat),
      distance x y len m1 = min (distance x y len m2) m1 := by
    intro x y len
    rw [distance_eq_min_from x y len m1 (by omega), distance_eq_min_from x y len m2 hm]
    omega
  refine ⟨key a b L, ?_, ?_, ?_⟩
  · rw [key a b L]
    omega
  · rw [key a b L]
    omega
  · intro P N c call t j i ht hj hi
    rw [dist_list_entry P N c m1 call t j i ht hj hi,
      dist_list_entry P N c m2 call t j i ht hj hi]
    exact key _ _ c

/-- Witness of C19: two mismatches, caps 1 and 9999. -/
theorem distance_recap_witness :
    1 ≤ 9999 ∧ 9999 < 2 ^ 32 ∧
    distance [1, 2] [2, 3] 2 1 = min (distance [1, 2] [2, 3] 2 9999) 1 ∧
    distance [1, 2] [2, 3] 2 9999 = 2 ∧ distance [1, 2] [2, 3] 2 1 = 1 :=
  ⟨by decide, by decide, (distance_recap [1, 2] [2, 3] 2 1 9999 (by decide) (by decide)).1,
    by decide, by decide⟩

/-- C20: on sequences of length `L` without the code `0` and for every cap
(a `uint32_t`), `distance(a,c) ≤ distance(a,b) + distance(b,c)`; the proof
only needs the middle sequence `b` to be of length `L` and free of `0`.  With
a `0` code the inequality fails for `a = [1]`, `b = [0]`, `c = [2]` and every
cap `m ≥ 1`. -/
theorem distance_triangle (a b c : List Nat) (L m : Nat)
    (hb : b.length = L) (hm : m < 2 ^ 32) (hb0 : ∀ x ∈ b, x ≠ 0) :
    distance a c L m ≤ distance a b L m + distance b c L m ∧
    (0 < m → ¬ (distance [1] [2] 1 m ≤ distance [1] [0] 1 m + distance [0] [2] 1 m)) := by
  constructor
  · have hpos : ∀ p, 0 ≤ p → p < 0 + L → b.getD p 0 ≠ 0 := by
      intro p _ hp
      have hp2 : p < b.length := by omega
      rw [List.getD_eq_getElem b 0 hp2]
      exact hb0 _ (List.getElem_mem hp2)
    have h := mismatch_from_triangle a b c L 0 hpos
    rw [distance_eq_min_from a c L m hm, distance_eq_min_from a b L m hm,
      distance_eq_min_from b c L m hm]
    omega
  · intro hm0
    have h1 : distance [1] [0] 1 m = 0 := by
      simp [distance, distance_loop, mismatch, IGNORE_ALLELE]
    have h2 : distance [0] [2] 1 m = 0 := by
      simp [distance, distance_loop, mismatch, IGNORE_ALLELE]
    have h3 : 0 < distance [1] [2] 1 m := by
      rw [distance_eq_min_from [1] [2] 1 m hm]
      simp [mismatch_from, mismatch, IGNORE_ALLELE]
      omega
    omega

/-- Witness of C20: three fully typed profiles of the example table, and the
failure with a missing code. -/
theorem distance_triangle_witness :
    ([1, 3] : List Nat).length = 2 ∧ 9999 < 2 ^ 32 ∧ (∀ x ∈ ([1, 3] : List Nat), x ≠ 0) ∧
    distance [1, 2] [2, 2] 2 9999 ≤ distance [1, 2] [1, 3] 2 9999 + distance [1, 3] [2, 2] 2 9999 ∧
    ¬ (distance [1] [2] 1 9999 ≤ distance [1] [0] 1 9999 + distance [0] [2] 1 9999) :=
  ⟨rfl, by decide, by decide,
    (distance_triangle [1, 2] [1, 3] [2, 2] 2 9999 rfl (by decide) (by decide)).1,
    (distance_triangle [1, 2] [1, 3] [2, 2] 2 9999 rfl (by decide) (by decide)).2 (by decide)⟩

/-! ## Lemmas on strstr and str_replace -/

theorem isPrefixOf_eq_true_iff (l1 l2 : List Char) :
    l1.isPrefixOf l2 = true ↔ l2 = l1 ++ l2.drop l1.length := by
  rw [List.isPrefixOf_iff_prefix, List.prefix_iff_eq_append]
  exact eq_comm

theorem strstr_some (needle : List Char) :
    ∀ (hay : List Char) (p : Nat), strstr hay needle = some p →
      hay = hay.take p ++ needle ++ hay.drop (p + needle.length) ∧ p + needle.length ≤ hay.length := by
  intro hay
  induction hay with
  | nil =>
    intro p h
    unfold strstr at h
    by_cases hn : needle.isEmpty = true
    · have hn2 : needle = [] := List.isEmpty_iff.mp hn
      subst hn2
      simp at h
      subst h
      simp
    · simp [hn] at h
  | cons c t ih =>
    intro p h
    unfold strstr at h
    by_cases hp : needle.isPrefixOf (c :: t) = true
    · rw [if_pos hp] at h
      have hp0 : p = 0 := (Option.some.inj h).symm
      subst hp0
      have h2 := (isPrefixOf_eq_true_iff needle (c :: t)).mp hp
      refine ⟨by simpa using h2, ?_⟩
      have h3 := congrArg List.length h2
      simp at h3
      simp
      omega
    · rw [if_neg hp] at h
      cases hk : strstr t needle with
      | none => rw [hk] at h; simp at h
      | some k =>
        rw [hk] at h
        have hp1 : p = k + 1 := by simpa using h.symm
        subst hp1
        obtain ⟨h1, h2⟩ := ih k hk
        refine ⟨?_, ?_⟩
        · have : k + 1 + needle.length = (k + needle.length) + 1 := by omega
          rw [this]
          simp only [List.take_succ_cons, List.drop_succ_cons, List.cons_append]
          rw [← h1]
        · simp
          omega

theorem strstr_none (needle : List Char) :
    ∀ (hay : List Char), strstr hay needle = none →
      ∀ u v, hay ≠ u ++ needle ++ v := by
  intro hay
  induction hay with
  | nil =>
    intro h u v heq
    have h1 : u ++ needle ++ v = [] := heq.symm
    simp at h1
    unfold strstr at h
    simp [h1.2.1] at h
  | cons c t ih =>
    intro h u v heq
    unfold strstr at h
    by_cases hp : needle.isPrefixOf (c :: t) = true
    · simp [hp] at h
    · rw [if_neg hp] at h
      have hk : strstr t needle = none := by
        cases hk : strstr t needle with
        | none => rfl
        | some k => rw [hk] at h; simp at h
      cases u with
      | nil =>
        apply hp
        rw [List.isPrefixOf_iff_prefix]
        exact ⟨v, by simpa using heq.symm⟩
      | cons x u =>
        simp only [List.cons_append, List.cons.injEq] at heq
        exact ih hk u v heq.2

theorem strncpy_at_length (str new : List Char) (p n : Nat) (hn : new.length = n)
    (h : p + n ≤ str.length) : (strncpy_at str p new n).length = str.length := by
  unfold strncpy_at
  simp [hn]
  omega

theorem strncpy_at_count (old new str : List Char) (c0 : Char) (p : Nat)
    (hlen : new.length = old.length) (hc : c0 ∈ old) (hn : c0 ∉ new)
    (h : strstr str old = some p) :
    (strncpy_at str p new new.length).count c0 < str.count c0 := by
  obtain ⟨h1, _⟩ := strstr_some old str p h
  have h2 : str.count c0 =
      (str.take p).count c0 + old.count c0 + (str.drop (p + old.length)).count c0 := by
    conv => lhs; rw [h1]
    simp only [List.count_append]
  have h3 : 0 < old.count c0 := List.count_pos_iff.mpr hc
  have h4 : new.count c0 = 0 := List.count_eq_zero.mpr hn
  unfold strncpy_at
  rw [List.take_length, List.count_append, List.count_append, h4, hlen]
  omega

theorem str_replace_loop_fuel (old new : List Char) (c0 : Char)
    (hlen : new.length = old.length) (hc : c0 ∈ old) (hn : c0 ∉ new) :
    ∀ (f1 f2 : Nat) (str : List Char), str.count c0 < f1 → str.count c0 < f2 →
      str_replace_loop old new f1 str = str_replace_loop old new f2 str ∧
      ∃ r, str_replace_loop old new f1 str = .done r := by
  intro f1
  induction f1 with
  | zero => intro f2 str h; omega
  | succ f1 ih =>
    intro f2 str h1 h2
    cases f2 with
    | zero => omega
    | succ f2 =>
      unfold str_replace_loop
      cases hs : strstr str old with
      | none => exact ⟨rfl, str, rfl⟩
      | some p =>
        have hlt := strncpy_at_count old new str c0 p hlen hc hn hs
        exact ih f2 _ (by omega) (by omega)

theorem str_replace_loop_eq (old new : List Char) (c0 : Char)
    (hlen : new.length = old.length) (hc : c0 ∈ old) (hn : c0 ∉ new)
    (fuel : Nat) (str : List Char) (h : str.count c0 < fuel) :
    str_replace_loop old new fuel str = .done (replaced old new str) := by
  have hcl : str.count c0 < str.length + 1 := Nat.lt_succ_of_le (List.count_le_length c0 str)
  obtain ⟨heq, r, hr⟩ := str_replace_loop_fuel old new c0 hlen hc hn (str.length + 1) fuel str hcl h
  unfold replaced
  rw [← heq, hr]

theorem replaced_unfold (old new : List Char) (c0 : Char)
    (hlen : new.length = old.length) (hc : c0 ∈ old) (hn : c0 ∉ new) (str : List Char) :
    replaced old new str =
      match strstr str old with
      | none => str
      | some p => replaced old new (strncpy_at str p new new.length) := by
  have h1 := str_replace_loop_eq old new c0 hlen hc hn (str.count c0 + 1) str (by omega)
  unfold str_replace_loop at h1
  cases hs : strstr str old with
  | none =>
    rw [hs] at h1
    simp only at h1 ⊢
    exact (Run.done.inj h1).symm
  | some p =>
    rw [hs] at h1
    simp only at h1 ⊢
    have hlt := strncpy_at_count old new str c0 p hlen hc hn hs
    rw [str_replace_loop_eq old new c0 hlen hc hn _ _ (by omega)] at h1
    exact (Run.done.inj h1).symm

/-- Induction along the rounds of the loop of `str_replace`. -/
theorem replaced_induction (old new : List Char) (c0 : Char)
    (hlen : new.length = old.length) (hc : c0 ∈ old) (hn : c0 ∉ new)
    (motive : List Char → List Char → Prop)
    (base : ∀ str, strstr str old = none → motive str str)
    (step : ∀ str p r, strstr str old = some p →
      motive (strncpy_at str p new new.length) r → motive str r) :
    ∀ str, motive str (replaced old new str) := by
  have key : ∀ (k : Nat) (str : List Char), str.count c0 < k → motive str (replaced old new str) := by
    intro k
    induction k with
    | zero => intro str h; omega
    | succ k ih =>
      intro str h
      rw [replaced_unfold old new c0 hlen hc hn str]
      cases hs : strstr str old with
      | none => exact base str hs
      | some p =>
        have hlt := strncpy_at_count old new str c0 p hlen hc hn hs
        exact step str p _ hs (ih _ (by omega))
  intro str
  exact key (str.count c0 + 1) str (by omega)

theorem replaced_of_none (old new : List Char) (c0 : Char)
    (hlen : new.length = old.length) (hc : c0 ∈ old) (hn : c0 ∉ new) (str : List Char)
    (h : strstr str old = none) : replaced old new str = str := by
  rw [replaced_unfold old new c0 hlen hc hn str, h]

theorem replaced_length (old new : List Char) (c0 : Char)
    (hlen : new.length = old.length) (hc : c0 ∈ old) (hn : c0 ∉ new) (str : List Char) :
    (replaced old new str).length = str.length := by
  apply replaced_induction old new c0 hlen hc hn (fun s r => r.length = s.length)
  · intro s _; rfl
  · intro s p r hs hr
    rw [hr]
    exact strncpy_at_length s new p new.length rfl (by rw [hlen]; exact (strstr_some old s p hs).2)

theorem replaced_no_occurrence (old new : List Char) (c0 : Char)
    (hlen : new.length = old.length) (hc : c0 ∈ old) (hn : c0 ∉ new) (str : List Char) :
    strstr (replaced old new str) old = none := by
  apply replaced_induction old new c0 hlen hc hn (fun _ r => strstr r old = none)
  · intro s hs; exact hs
  · intro s p r _ hr; exact hr

theorem strstr_cons (c : Char) (t needle : List Char) :
    strstr (c :: t) needle =
      if needle.isPrefixOf (c :: t) then some 0 else (strstr t needle).map (fun k => k + 1) := by
  rw [strstr]

theorem strstr_nil (old : List Char) (h : old ≠ []) : strstr [] old = none := by
  unfold strstr
  simp [List.isEmpty_iff, h]

theorem strstr_append_of_some (old : List Char) (hne : old ≠ []) :
    ∀ (u w : List Char) (p : Nat), strstr u old = some p → strstr (u ++ w) old = some p := by
  intro u
  induction u with
  | nil =>
    intro w p h
    rw [strstr_nil old hne] at h
    exact absurd h (by simp)
  | cons c t ih =>
    intro w p h
    have hb := (strstr_some old (c :: t) p h).2
    rw [strstr_cons] at h
    rw [List.cons_append, strstr_cons]
    by_cases hp : old.isPrefixOf (c :: t) = true
    · rw [if_pos hp] at h
      have hp2 : old.isPrefixOf (c :: (t ++ w)) = true := by
        rw [List.isPrefixOf_iff_prefix] at hp ⊢
        exact hp.trans ⟨w, by simp⟩
      rw [if_pos hp2]
      exact h
    · rw [if_neg hp] at h
      cases hk : strstr t old with
      | none => rw [hk] at h; simp at h
      | some k =>
        rw [hk] at h
        have hkb := (strstr_some old t k hk).2
        have hp2 : ¬ old.isPrefixOf (c :: (t ++ w)) = true := by
          intro hcon
          apply hp
          rw [List.isPrefixOf_iff_prefix] at hcon ⊢
          have h1 : (c :: t) <+: (c :: (t ++ w)) := ⟨w, by simp⟩
          exact List.prefix_of_prefix_length_le hcon h1 (by simp; omega)
        rw [if_neg hp2, ih w k hk]
        exact h

theorem strstr_append_of_none (old : List Char) (hne : old ≠ []) (x : Char) (hx : x ∉ old) :
    ∀ (u v : List Char), strstr u old = none →
      strstr (u ++ x :: v) old = (strstr v old).map (fun k => k + (u.length + 1)) := by
  intro u
  induction u with
  | nil =>
    intro v _
    rw [List.nil_append, strstr_cons]
    have hp : ¬ old.isPrefixOf (x :: v) = true := by
      intro hcon
      rw [List.isPrefixOf_iff_prefix] at hcon
      cases old with
      | nil => exact hne rfl
      | cons o os =>
        obtain ⟨r, hr⟩ := hcon
        simp only [List.cons_append, List.cons.injEq] at hr
        exact hx (by rw [hr.1]; simp)
    rw [if_neg hp]
    simp
  | cons c t ih =>
    intro v h
    unfold strstr at h
    by_cases hp : old.isPrefixOf (c :: t) = true
    · simp [hp] at h
    · rw [if_neg hp] at h
      have hk : strstr t old = none := by
        cases hk : strstr t old with
        | none => rfl
        | some k => rw [hk] at h; simp at h
      rw [List.cons_append, strstr_cons]
      have hp2 : ¬ old.isPrefixOf (c :: (t ++ x :: v)) = true := by
        intro hcon
        rw [List.isPrefixOf_iff_prefix] at hcon
        by_cases hl : old.length ≤ (c :: t).length
        · apply hp
          rw [List.isPrefixOf_iff_prefix]
          have h1 : (c :: t) <+: (c :: (t ++ x :: v)) := ⟨x :: v, by simp⟩
          exact List.prefix_of_prefix_length_le hcon h1 hl
        · have h1 : (c :: t ++ [x]) <+: (c :: (t ++ x :: v)) := ⟨v, by simp⟩
          have h2 : (c :: t ++ [x]) <+: old :=
            List.prefix_of_prefix_length_le h1 hcon (by simp at hl ⊢; omega)
          obtain ⟨r, hr⟩ := h2
          apply hx
          rw [← hr]
          simp
      have hf : ((fun k => k + 1) ∘ fun k => k + (t.length + 1)) =
          fun k => k + ((c :: t).length + 1) := by
        funext k
        simp only [Function.comp, List.length_cons]
        omega
      rw [if_neg hp2, ih v hk, Option.map_map, hf]

theorem strncpy_at_append_left (u w new : List Char) (p n : Nat) (h : p + n ≤ u.length) :
    strncpy_at (u ++ w) p new n = strncpy_at u p new n ++ w := by
  unfold strncpy_at
  rw [List.take_append_of_le_length (by omega), List.drop_append_of_le_length h]
  simp

theorem strncpy_at_append_right (u v new : List Char) (x : Char) (q n : Nat) :
    strncpy_at (u ++ x :: v) (q + (u.length + 1)) new n = u ++ x :: strncpy_at v q new n := by
  unfold strncpy_at
  have h1 : q + (u.length + 1) = (u ++ [x]).length + q := by simp; omega
  have h2 : q + (u.length + 1) + n = (u ++ [x]).length + (q + n) := by simp; omega
  have h3 : u ++ x :: v = (u ++ [x]) ++ v := by simp
  rw [h1, h3, List.take_append, ← h1, h2, List.drop_append]
  simp

/-- A character that does not occur in `old` separates the work of
`str_replace`: the text on each side is replaced on its own. -/
theorem replaced_append (old new : List Char) (c0 : Char)
    (hlen : new.length = old.length) (hc : c0 ∈ old) (hn : c0 ∉ new)
    (x : Char) (hx : x ∉ old) (u v : List Char) :
    replaced old new (u ++ x :: v) = replaced old new u ++ x :: replaced old new v := by
  have hne : old ≠ [] := by intro h; rw [h] at hc; simp at hc
  have key := replaced_induction old new c0 hlen hc hn
    (fun s r => ∀ u v, s = u ++ x :: v → r = replaced old new u ++ x :: replaced old new v)
    (by
      intro s hs u v hsuv
      subst hsuv
      have hu : strstr u old = none := by
        cases hu : strstr u old with
        | none => rfl
        | some q =>
          rw [strstr_append_of_some old hne u (x :: v) q hu] at hs
          simp at hs
      have hv : strstr v old = none := by
        rw [strstr_append_of_none old hne x hx u v hu] at hs
        cases hv : strstr v old with
        | none => rfl
        | some q => rw [hv] at hs; simp at hs
      rw [replaced_of_none old new c0 hlen hc hn u hu, replaced_of_none old new c0 hlen hc hn v hv])
    (by
      intro s p r hs hr u v hsuv
      subst hsuv
      cases hu : strstr u old with
      | some q =>
        have h1 := strstr_append_of_some old hne u (x :: v) q hu
        rw [h1] at hs
        have hpq : q = p := Option.some.inj hs
        subst hpq
        have hb := (strstr_some old u q hu).2
        rw [strncpy_at_append_left u (x :: v) new q new.length (by omega)] at hr
        rw [hr _ _ rfl]
        congr 1
        rw [replaced_unfold old new c0 hlen hc hn u, hu]
      | none =>
        have h1 := strstr_append_of_none old hne x hx u v hu
        rw [h1] at hs
        cases hv : strstr v old with
        | none => rw [hv] at hs; simp at hs
        | some q =>
          rw [hv] at hs
          have hpq : q + (u.length + 1) = p := by simpa using hs
          subst hpq
          rw [strncpy_at_append_right] at hr
          rw [hr _ _ rfl]
          congr 2
          rw [replaced_unfold old new c0 hlen hc hn v, hv])
  exact key (u ++ x :: v) u v rfl

theorem strstr_some_split (needle hay : List Char) (p : Nat) (h : strstr hay needle = some p) :
    ∃ a c, hay = a ++ needle ++ c ∧ a.length = p := by
  obtain ⟨h1, h2⟩ := strstr_some needle hay p h
  exact ⟨hay.take p, hay.drop (p + needle.length), h1, by simp; omega⟩

theorem forall₂_new_trans (new : List Char) :
    ∀ (l1 l2 l3 : List Char),
      List.Forall₂ (fun x y => y = x ∨ y ∈ new) l1 l2 →
      List.Forall₂ (fun x y => y = x ∨ y ∈ new) l2 l3 →
      List.Forall₂ (fun x y => y = x ∨ y ∈ new) l1 l3 := by
  intro l1 l2 l3 h12
  induction h12 generalizing l3 with
  | nil => intro h; exact h
  | cons hxy _ ih =>
    intro h23
    cases h23 with
    | cons hyz h23t =>
      refine List.Forall₂.cons ?_ (ih _ h23t)
      rcases hyz with h | h
      · rcases hxy with h2 | h2
        · exact Or.inl (h.trans h2)
        · exact Or.inr (h ▸ h2)
      · exact Or.inr h

theorem forall₂_new_of_length (new : List Char) :
    ∀ (l1 l2 : List Char), l1.length = l2.length → (∀ y ∈ l2, y ∈ new) →
      List.Forall₂ (fun x y => y = x ∨ y ∈ new) l1 l2 := by
  intro l1
  induction l1 with
  | nil =>
    intro l2 h _
    have : l2 = [] := List.length_eq_zero.mp h.symm
    subst this
    exact List.Forall₂.nil
  | cons x t ih =>
    intro l2 h hm
    cases l2 with
    | nil => simp at h
    | cons y u =>
      exact List.Forall₂.cons (Or.inr (hm y (by simp)))
        (ih u (by simpa using h) (fun z hz => hm z (by simp [hz])))

/-- Every character of the text `str_replace` leaves is the one that was there
or one of `new`. -/
theorem replaced_forall₂ (old new : List Char) (c0 : Char)
    (hlen : new.length = old.length) (hc : c0 ∈ old) (hn : c0 ∉ new) (str : List Char) :
    List.Forall₂ (fun x y => y = x ∨ y ∈ new) str (replaced old new str) := by
  apply replaced_induction old new c0 hlen hc hn
    (fun s r => List.Forall₂ (fun x y => y = x ∨ y ∈ new) s r)
  · intro s _
    exact List.forall₂_same.mpr (fun x _ => Or.inl rfl)
  · intro s p r hs hr
    refine forall₂_new_trans new s _ r ?_ hr
    obtain ⟨a, c, hsplit, hap⟩ := strstr_some_split old s p hs
    have hcopy : strncpy_at s p new new.length = a ++ new ++ c := by
      unfold strncpy_at
      rw [List.take_length, hsplit, ← hap, hlen]
      have e1 : a ++ old ++ c = a ++ (old ++ c) := by simp
      rw [e1, List.take_left, List.drop_append, List.drop_left]
    rw [hcopy]
    conv => lhs; rw [hsplit]
    refine List.rel_append (List.rel_append ?_ ?_) ?_
    · exact List.forall₂_same.mpr (fun x _ => Or.inl rfl)
    · exact forall₂_new_of_length new old new hlen.symm (fun y hy => hy)
    · exact List.forall₂_same.mpr (fun x _ => Or.inl rfl)

theorem forall₂_new_eq (new : List Char) :
    ∀ (w old1 : List Char), (∀ c ∈ old1, c ∉ new) →
      List.Forall₂ (fun x y => y = x ∨ y ∈ new) w old1 → w = old1 := by
  intro w old1 hdis h
  induction h with
  | nil => rfl
  | cons hxy _ ih =>
    rename_i x y t u _
    have hy : y ∉ new := hdis y (by simp)
    have hx : y = x := by
      rcases hxy with h1 | h1
      · exact h1
      · exact absurd h1 hy
    rw [hx, ih (fun c hc => hdis c (by simp [hc]))]

/-- `str_replace` creates no occurrence of a text that shares no character
with `new`. -/
theorem replaced_no_new_occurrence (old new : List Char) (c0 : Char)
    (hlen : new.length = old.length) (hc : c0 ∈ old) (hn : c0 ∉ new)
    (old1 : List Char) (hdis : ∀ c ∈ old1, c ∉ new) (s : List Char)
    (h : strstr s old1 = none) : strstr (replaced old new s) old1 = none := by
  cases hr : strstr (replaced old new s) old1 with
  | none => rfl
  | some p =>
    exfalso
    obtain ⟨a, c, hsplit, _⟩ := strstr_some_split old1 _ p hr
    have hF := replaced_forall₂ old new c0 hlen hc hn s
    rw [hsplit] at hF
    have h1 := List.forall₂_take_append s (a ++ old1) c hF
    have h2 := List.forall₂_drop_append _ a old1 h1
    have h3 := forall₂_new_eq new _ old1 hdis h2
    generalize (a ++ old1).length = m at h3
    have h4 : s = List.take a.length (List.take m s) ++ old1 ++ List.drop m s := by
      rw [← h3, List.take_append_drop, List.take_append_drop]
    exact strstr_none old1 s h _ _ h4

/-! ## Lemmas on strtok_r and the tokens of a line -/

theorem strtok_r_nil : strtok_r [] = none := rfl

theorem strtok_r_delim_cons (d : Char) (s : List Char) (hd : is_delim d = true) :
    strtok_r (d :: s) = strtok_r s := by
  unfold strtok_r
  rw [List.dropWhile_cons_of_pos hd]

theorem strtok_r_delims_append (ds w : List Char) (h : ∀ c ∈ ds, is_delim c = true) :
    strtok_r (ds ++ w) = strtok_r w := by
  induction ds with
  | nil => rfl
  | cons d ds ih =>
    rw [List.cons_append, strtok_r_delim_cons d _ (h d (by simp))]
    exact ih (fun c hc => h c (by simp [hc]))

theorem strtok_r_token_sep (tok rest : List Char) (d : Char) (hne : tok ≠ [])
    (htok : ∀ c ∈ tok, is_delim c = false) (hd : is_delim d = true) :
    strtok_r (tok ++ d :: rest) = some (tok, rest) := by
  cases tok with
  | nil => exact absurd rfl hne
  | cons c t =>
    have hc : is_delim c = false := htok c (by simp)
    have hnd : ∀ a ∈ c :: t, (!is_delim a) = true := by
      intro a ha
      rw [htok a ha]
      rfl
    unfold strtok_r
    have h1 : List.dropWhile is_delim (c :: t ++ d :: rest) = c :: t ++ d :: rest := by
      rw [List.cons_append, List.dropWhile_cons_of_neg (by simp [hc])]
    simp only [h1]
    rw [List.takeWhile_append_of_pos hnd, List.dropWhile_append_of_pos hnd,
      List.takeWhile_cons_of_neg (by simp [hd]), List.dropWhile_cons_of_neg (by simp [hd])]
    simp

theorem strtok_r_token_end (tok : List Char) (hne : tok ≠ [])
    (htok : ∀ c ∈ tok, is_delim c = false) :
    strtok_r tok = some (tok, []) := by
  cases tok with
  | nil => exact absurd rfl hne
  | cons c t =>
    have hc : is_delim c = false := htok c (by simp)
    have hnd : ∀ a ∈ c :: t, (!is_delim a) = true := by
      intro a ha
      rw [htok a ha]
      rfl
    unfold strtok_r
    have h1 : List.dropWhile is_delim (c :: t) = c :: t := by
      rw [List.dropWhile_cons_of_neg (by simp [hc])]
    simp only [h1]
    have h2 : List.takeWhile (fun c => !is_delim c) (c :: t) = c :: t :=
      List.takeWhile_eq_self_iff.mpr hnd
    have h3 : List.dropWhile (fun c => !is_delim c) (c :: t) = [] :=
      List.dropWhile_eq_nil_iff.mpr hnd
    rw [h2, h3]
    simp

/-- Shape of a text with respect to `strtok_r`: only delimiters, or leading
delimiters, a token, and then the end or a delimiter and the rest. -/
theorem token_shape (s : List Char) :
    (∀ c ∈ s, is_delim c = true) ∨
    ∃ ds tok tl rest, s = ds ++ tok ++ tl ∧ (∀ c ∈ ds, is_delim c = true) ∧ tok ≠ [] ∧
      (∀ c ∈ tok, is_delim c = false) ∧
      ((tl = [] ∧ rest = []) ∨ ∃ d, is_delim d = true ∧ tl = d :: rest) := by
  by_cases h1 : s.dropWhile is_delim = []
  · left
    exact List.dropWhile_eq_nil_iff.mp h1
  · right
    have hs : s = s.takeWhile is_delim ++ s.dropWhile is_delim :=
      (List.takeWhile_append_dropWhile is_delim s).symm
    have hs1 : s.dropWhile is_delim =
        (s.dropWhile is_delim).takeWhile (fun c => !is_delim c) ++
          (s.dropWhile is_delim).dropWhile (fun c => !is_delim c) :=
      (List.takeWhile_append_dropWhile _ _).symm
    have hhead := List.head_dropWhile_not is_delim s h1
    have htokne : (s.dropWhile is_delim).takeWhile (fun c => !is_delim c) ≠ [] := by
      cases hd : s.dropWhile is_delim with
      | nil => exact absurd hd h1
      | cons x xs =>
        simp only [hd, List.head_cons] at hhead
        rw [List.takeWhile_cons_of_pos (by simp [hhead])]
        simp
    refine ⟨s.takeWhile is_delim, (s.dropWhile is_delim).takeWhile (fun c => !is_delim c),
      (s.dropWhile is_delim).dropWhile (fun c => !is_delim c),
      ((s.dropWhile is_delim).dropWhile (fun c => !is_delim c)).tail, ?_, ?_, htokne, ?_, ?_⟩
    · rw [List.append_assoc, ← hs1, ← hs]
    · intro c hc
      exact List.mem_takeWhile_imp hc
    · intro c hc
      have := List.mem_takeWhile_imp hc
      simpa using this
    · cases hd : (s.dropWhile is_delim).dropWhile (fun c => !is_delim c) with
      | nil => left; exact ⟨rfl, rfl⟩
      | cons x xs =>
        right
        have hne : (s.dropWhile is_delim).dropWhile (fun c => !is_delim c) ≠ [] := by
          rw [hd]; simp
        have hh := List.head_dropWhile_not (fun c => !is_delim c) (s.dropWhile is_delim) hne
        simp only [hd, List.head_cons] at hh
        exact ⟨x, by simpa using hh, rfl⟩

theorem strtok_r_of_delims (s : List Char) (h : ∀ c ∈ s, is_delim c = true) :
    strtok_r s = none := by
  have := strtok_r_delims_append s [] h
  rw [List.append_nil] at this
  rw [this]
  rfl

theorem strtok_r_rest_lt (s tok rest : List Char) (h : strtok_r s = some (tok, rest)) :
    rest.length < s.length ∧ tok ≠ [] ∧ (∀ c ∈ tok, is_delim c = false) := by
  rcases token_shape s with hall | ⟨ds, tk, tl, rs, hs, hds, hne, htk, htl⟩
  · rw [strtok_r_of_delims s hall] at h
    exact absurd h (by simp)
  · rcases htl with ⟨h1, h2⟩ | ⟨d, hd, h1⟩
    · subst h1 h2
      rw [hs, List.append_nil, strtok_r_delims_append ds tk hds,
        strtok_r_token_end tk hne htk] at h
      have h3 := Option.some.inj h
      have h4 : tk = tok := congrArg Prod.fst h3
      have h5 : [] = rest := congrArg Prod.snd h3
      subst h4 h5
      refine ⟨?_, hne, htk⟩
      rw [hs]
      have : 0 < tk.length := List.length_pos.mpr hne
      simp
      omega
    · subst h1
      rw [hs, List.append_assoc, strtok_r_delims_append ds _ hds,
        strtok_r_token_sep tk rs d hne htk hd] at h
      have h3 := Option.some.inj h
      have h4 : tk = tok := congrArg Prod.fst h3
      have h5 : rs = rest := congrArg Prod.snd h3
      subst h4 h5
      refine ⟨?_, hne, htk⟩
      rw [hs]
      simp
      omega

theorem tokens_fuel_irrel :
    ∀ (f1 f2 : Nat) (s : List Char), s.length < f1 → s.length < f2 →
      tokens_fuel f1 s = tokens_fuel f2 s := by
  intro f1
  induction f1 with
  | zero => intro f2 s h; omega
  | succ f1 ih =>
    intro f2 s h1 h2
    cases f2 with
    | zero => omega
    | succ f2 =>
      unfold tokens_fuel
      cases hs : strtok_r s with
      | none => rfl
      | some tr =>
        obtain ⟨tok, rest⟩ := tr
        have hlt := (strtok_r_rest_lt s tok rest hs).1
        simp only
        rw [ih f2 rest (by omega) (by omega)]

theorem tokens_fuel_eq (f : Nat) (s : List Char) (h : s.length < f) :
    tokens_fuel f s = tokens s :=
  tokens_fuel_irrel f (s.length + 1) s h (by omega)

theorem tokens_unfold (s : List Char) :
    tokens s = match strtok_r s with
      | none => []
      | some (tok, rest) => tok :: tokens rest := by
  unfold tokens
  rw [tokens_fuel]
  cases hs : strtok_r s with
  | none => rfl
  | some tr =>
    obtain ⟨tok, rest⟩ := tr
    have hlt := (strtok_r_rest_lt s tok rest hs).1
    simp only
    rw [tokens_fuel_irrel s.length (rest.length + 1) rest hlt (by omega)]

theorem tokens_of_delims (s : List Char) (h : ∀ c ∈ s, is_delim c = true) : tokens s = [] := by
  rw [tokens_unfold, strtok_r_of_delims s h]

theorem tokens_delims_append (ds w : List Char) (h : ∀ c ∈ ds, is_delim c = true) :
    tokens (ds ++ w) = tokens w := by
  rw [tokens_unfold, strtok_r_delims_append ds w h, ← tokens_unfold]

theorem tokens_token_sep (tok rest : List Char) (d : Char) (hne : tok ≠ [])
    (htok : ∀ c ∈ tok, is_delim c = false) (hd : is_delim d = true) :
    tokens (tok ++ d :: rest) = tok :: tokens rest := by
  rw [tokens_unfold, strtok_r_token_sep tok rest d hne htok hd]

theorem tokens_token_end (tok : List Char) (hne : tok ≠ [])
    (htok : ∀ c ∈ tok, is_delim c = false) : tokens tok = [tok] := by
  rw [tokens_unfold, strtok_r_token_end tok hne htok]
  simp only
  rw [tokens_of_delims [] (by simp)]

/-- A delimiter ends the token in front of it: the tokens of the two sides
are found independently. -/
theorem tokens_append_delim (d : Char) (hd : is_delim d = true) :
    ∀ (n : Nat) (u v : List Char), u.length < n →
      tokens (u ++ d :: v) = tokens u ++ tokens v := by
  intro n
  induction n with
  | zero => intro u v h; omega
  | succ n ih =>
    intro u v hlen
    rcases token_shape u with hall | ⟨ds, tk, tl, rs, hs, hds, hne, htk, htl⟩
    · have hdv : tokens (d :: v) = tokens v :=
        tokens_delims_append [d] v (by simpa using hd)
      rw [tokens_of_delims u hall, List.nil_append, tokens_delims_append u _ hall, hdv]
    · rcases htl with ⟨h1, h2⟩ | ⟨d1, hd1, h1⟩
      · subst h1 h2
        rw [hs, List.append_nil, List.append_assoc, tokens_delims_append ds _ hds,
          tokens_token_sep tk v d hne htk hd, tokens_delims_append ds _ hds,
          tokens_token_end tk hne htk]
        rfl
      · subst h1
        have hrs : rs.length < n := by
          rw [hs] at hlen
          simp at hlen
          omega
        rw [hs]
        have e1 : ds ++ tk ++ d1 :: rs ++ d :: v = ds ++ (tk ++ d1 :: (rs ++ d :: v)) := by
          simp
        have e2 : ds ++ tk ++ d1 :: rs = ds ++ (tk ++ d1 :: rs) := by simp
        rw [e1, e2, tokens_delims_append ds _ hds, tokens_delims_append ds _ hds,
          tokens_token_sep tk _ d1 hne htk hd1, tokens_token_sep tk _ d1 hne htk hd1,
          ih rs v hrs]
        rfl

/-- Tokens of an edited line, for an edit `g` that works on each side of a
delimiter separately, keeps lengths and puts no delimiter into a token. -/
theorem tokens_map_of_local (g : List Char → List Char)
    (hloc : ∀ (d : Char), is_delim d = true → ∀ u v, g (u ++ d :: v) = g u ++ d :: g v)
    (hnil : g [] = [])
    (hlen : ∀ s, (g s).length = s.length)
    (hnd : ∀ s, (∀ c ∈ s, is_delim c = false) → ∀ c ∈ g s, is_delim c = false) :
    ∀ (n : Nat) (s : List Char), s.length < n → tokens (g s) = (tokens s).map g := by
  have hds : ∀ (ds w : List Char), (∀ c ∈ ds, is_delim c = true) → g (ds ++ w) = ds ++ g w := by
    intro ds
    induction ds with
    | nil => intro w _; rfl
    | cons d ds ih =>
      intro w h
      have h1 := hloc d (h d (by simp)) [] (ds ++ w)
      rw [List.nil_append, hnil, List.nil_append] at h1
      rw [List.cons_append, h1, ih w (fun c hc => h c (by simp [hc]))]
      rfl
  have hgne : ∀ tk : List Char, tk ≠ [] → g tk ≠ [] := by
    intro tk hne hcon
    have := hlen tk
    rw [hcon] at this
    exact hne (List.length_eq_zero.mp this.symm)
  intro n
  induction n with
  | zero => intro s h; omega
  | succ n ih =>
    intro s hsl
    rcases token_shape s with hall | ⟨ds, tk, tl, rs, hs, hdsd, hne, htk, htl⟩
    · have h1 := hds s [] hall
      rw [List.append_nil, hnil, List.append_nil] at h1
      rw [h1, tokens_of_delims s hall]
      rfl
    · rcases htl with ⟨h1, h2⟩ | ⟨d1, hd1, h1⟩
      · subst h1 h2
        rw [hs, List.append_nil, hds ds tk hdsd, tokens_delims_append ds _ hdsd,
          tokens_delims_append ds _ hdsd, tokens_token_end tk hne htk,
          tokens_token_end (g tk) (hgne tk hne) (hnd tk htk)]
        rfl
      · subst h1
        have hrs : rs.length < n := by
          rw [hs] at hsl
          simp at hsl
          omega
        rw [hs, List.append_assoc, hds ds _ hdsd, hloc d1 hd1 tk rs,
          tokens_delims_append ds _ hdsd, tokens_delims_append ds _ hdsd,
          tokens_token_sep tk rs d1 hne htk hd1,
          tokens_token_sep (g tk) (g rs) d1 (hgne tk hne) (hnd tk htk) hd1, ih rs hrs]
        rfl

/-! ## Lemmas on the token loop -/

theorem token_loop_data (row : Int) (ncol : Nat) (hrow : 0 ≤ row) :
    ∀ (fuel : Nat) (save : List Char) (st : LineScan), save.length < fuel →
      token_loop row ncol fuel save st = .done ((tokens save).foldl (store_token ncol) st) := by
  intro fuel
  induction fuel with
  | zero => intro save st h; omega
  | succ fuel ih =>
    intro save st h
    rw [token_loop, tokens_unfold]
    cases hs : strtok_r save with
    | none => rfl
    | some tr =>
      obtain ⟨tok, rest⟩ := tr
      obtain ⟨hlt, hne, _⟩ := strtok_r_rest_lt save tok rest hs
      have hlen : tok.length ≠ 0 := fun h0 => hne (List.length_eq_zero.mp h0)
      simp only [ge_iff_le, hrow, if_true, hlen, if_false, List.foldl_cons]
      by_cases hc : st.col < 0
      · simp only [hc, if_true]
        rw [ih rest _ (by omega)]
        simp [store_token, hc]
      · simp only [hc, if_false]
        rw [ih rest _ (by omega)]
        simp [store_token, hc, allele_code]

theorem token_loop_header (row : Int) (ncol : Nat) (hrow : ¬ 0 ≤ row) :
    ∀ (fuel : Nat) (save : List Char) (st : LineScan), save.length < fuel →
      token_loop row ncol fuel save st =
        .done { st with col := st.col + ((tokens save).length : Nat) } := by
  intro fuel
  induction fuel with
  | zero => intro save st h; omega
  | succ fuel ih =>
    intro save st h
    rw [token_loop, tokens_unfold]
    cases hs : strtok_r save with
    | none => simp
    | some tr =>
      obtain ⟨tok, rest⟩ := tr
      obtain ⟨hlt, _, _⟩ := strtok_r_rest_lt save tok rest hs
      simp only [ge_iff_le, hrow, if_false]
      rw [ih rest _ (by omega)]
      simp only [List.length_cons, Nat.cast_add, Nat.cast_one]
      congr 2
      omega

theorem store_token_of_nonneg (ncol : Nat) (st : LineScan) (s : List Char) (h : 0 ≤ st.col) :
    store_token ncol st s =
      { st with col := st.col + 1, rcall := st.rcall.set st.col.toNat (allele_code s) } := by
  unfold store_token
  rw [if_neg (by omega)]

theorem store_token_first (ncol : Nat) (s : List Char) :
    store_token ncol { col := -1, rid := [], rcall := [] } s =
      { col := 0, rid := s, rcall := List.replicate ncol 0 } := by
  simp [store_token]

/-- Storing the codes of the tokens `ts` from column `j` on, in a profile
whose first `j` codes are `pre` and whose other `k` entries are still zero. -/
theorem foldl_store_token_fill (ncol : Nat) :
    ∀ (ts : List (List Char)) (pre : List Nat) (k j : Nat) (st : LineScan),
      st.col = (j : Int) → st.rcall = pre ++ List.replicate k 0 → pre.length = j →
      ts.length ≤ k →
      (ts.foldl (store_token ncol) st).col = (j + ts.length : Nat) ∧
      (ts.foldl (store_token ncol) st).rid = st.rid ∧
      (ts.foldl (store_token ncol) st).rcall =
        pre ++ ts.map allele_code ++ List.replicate (k - ts.length) 0 := by
  intro ts
  induction ts with
  | nil =>
    intro pre k j st hc hr _ _
    simp [hc, hr]
  | cons t ts ih =>
    intro pre k j st hc hr hp hk
    obtain ⟨k1, hk1⟩ : ∃ k1, k = k1 + 1 := ⟨k - 1, by simp at hk; omega⟩
    subst hk1
    rw [List.foldl_cons, store_token_of_nonneg ncol st t (by omega)]
    have hset : st.rcall.set st.col.toNat (allele_code t) =
        (pre ++ [allele_code t]) ++ List.replicate k1 0 := by
      rw [hr, hc, Int.toNat_ofNat, ← hp, List.replicate_succ]
      simp
    obtain ⟨h1, h2, h3⟩ := ih (pre ++ [allele_code t]) k1 (j + 1)
      { st with col := st.col + 1, rcall := st.rcall.set st.col.toNat (allele_code t) }
      (by simp [hc]) hset (by simp [hp]) (by simp at hk; omega)
    refine ⟨?_, h2, ?_⟩
    · rw [h1]
      simp
      omega
    · rw [h3]
      simp

theorem foldl_store_token_basic (ncol : Nat) :
    ∀ (ts : List (List Char)) (st : LineScan), 0 ≤ st.col →
      (ts.foldl (store_token ncol) st).col = st.col + (ts.length : Nat) ∧
      (ts.foldl (store_token ncol) st).rid = st.rid ∧
      (ts.foldl (store_token ncol) st).rcall.length = st.rcall.length := by
  intro ts
  induction ts with
  | nil => intro st _; simp
  | cons t ts ih =>
    intro st h
    rw [List.foldl_cons, store_token_of_nonneg ncol st t h]
    obtain ⟨h1, h2, h3⟩ := ih
      { st with col := st.col + 1, rcall := st.rcall.set st.col.toNat (allele_code t) }
      (by simp; omega)
    refine ⟨?_, h2, ?_⟩
    · rw [h1]
      simp
      omega
    · rw [h3]
      simp

/-- The result of the token loop of a data row, from the tokens it sees:
`col` counts the tokens after the first, the first token is the identifier,
the profile has `ncol` entries, and when the row has at most `ncol` further
tokens their codes open the profile. -/
theorem foldl_store_token_init (ncol : Nat) (t0 : List Char) (ts : List (List Char)) :
    ((t0 :: ts).foldl (store_token ncol) { col := -1, rid := [], rcall := [] }).col =
      (ts.length : Nat) ∧
    ((t0 :: ts).foldl (store_token ncol) { col := -1, rid := [], rcall := [] }).rid = t0 ∧
    ((t0 :: ts).foldl (store_token ncol) { col := -1, rid := [], rcall := [] }).rcall.length =
      ncol ∧
    (ts.length ≤ ncol →
      ((t0 :: ts).foldl (store_token ncol) { col := -1, rid := [], rcall := [] }).rcall =
        ts.map allele_code ++ List.replicate (ncol - ts.length) 0) := by
  rw [List.foldl_cons, store_token_first]
  obtain ⟨h1, h2, h3⟩ := foldl_store_token_basic ncol ts
    { col := 0, rid := t0, rcall := List.replicate ncol 0 } (by simp)
  refine ⟨by simpa using h1, h2, by simpa using h3, ?_⟩
  intro h
  obtain ⟨_, _, h4⟩ := foldl_store_token_fill ncol ts [] ncol 0
    { col := 0, rid := t0, rcall := List.replicate ncol 0 } rfl (by simp) rfl h
  simpa using h4

/-! ## Lemmas on cleanup_line -/

theorem replaced_mem (old new : List Char) (c0 : Char)
    (hlen : new.length = old.length) (hc : c0 ∈ old) (hn : c0 ∉ new) (str : List Char) :
    ∀ c ∈ replaced old new str, c ∈ str ∨ c ∈ new := by
  apply replaced_induction old new c0 hlen hc hn (fun s r => ∀ c ∈ r, c ∈ s ∨ c ∈ new)
  · intro s _ c hcs
    exact Or.inl hcs
  · intro s p r _ hr c hcr
    rcases hr c hcr with h | h
    · unfold strncpy_at at h
      rw [List.mem_append, List.mem_append] at h
      rcases h with (h | h) | h
      · exact Or.inl (List.mem_of_mem_take h)
      · exact Or.inr (List.mem_of_mem_take h)
      · exact Or.inl (List.mem_of_mem_drop h)
    · exact Or.inr h

theorem is_delim_iff (c : Char) : is_delim c = true ↔ c = '\n' ∨ c = '\r' ∨ c = '\t' := by
  simp [is_delim, DELIMS]

theorem is_delim_not_alpha (d : Char) (hd : is_delim d = true) : isalpha d = false := by
  rcases (is_delim_iff d).mp hd with h | h | h <;> subst h <;> decide

theorem is_delim_not_mem_plot3 (d : Char) (hd : is_delim d = true) : d ∉ "PLOT3".toList := by
  rcases (is_delim_iff d).mp hd with h | h | h <;> subst h <;> decide

theorem is_delim_not_mem_plot5 (d : Char) (hd : is_delim d = true) : d ∉ "PLOT5".toList := by
  rcases (is_delim_iff d).mp hd with h | h | h <;> subst h <;> decide

theorem plot3_good : "    0".toList.length = "PLOT3".toList.length ∧ 'P' ∈ "PLOT3".toList ∧
    'P' ∉ "    0".toList := by decide

theorem plot5_good : "    0".toList.length = "PLOT5".toList.length ∧ 'P' ∈ "PLOT5".toList ∧
    'P' ∉ "    0".toList := by decide

theorem replaced_plot3_append (d : Char) (hd : is_delim d = true) (u v : List Char) :
    replaced "PLOT3".toList "    0".toList (u ++ d :: v) =
      replaced "PLOT3".toList "    0".toList u ++ d :: replaced "PLOT3".toList "    0".toList v :=
  replaced_append _ _ 'P' plot3_good.1 plot3_good.2.1 plot3_good.2.2 d
    (is_delim_not_mem_plot3 d hd) u v

theorem replaced_plot5_append (d : Char) (hd : is_delim d = true) (u v : List Char) :
    replaced "PLOT5".toList "    0".toList (u ++ d :: v) =
      replaced "PLOT5".toList "    0".toList u ++ d :: replaced "PLOT5".toList "    0".toList v :=
  replaced_append _ _ 'P' plot5_good.1 plot5_good.2.1 plot5_good.2.2 d
    (is_delim_not_mem_plot5 d hd) u v

theorem clean_text_nil : clean_text [] = [] := by decide

theorem clean_text_length (s : List Char) : (clean_text s).length = s.length := by
  unfold clean_text
  rw [List.length_map,
    replaced_length _ _ 'P' plot5_good.1 plot5_good.2.1 plot5_good.2.2,
    replaced_length _ _ 'P' plot3_good.1 plot3_good.2.1 plot3_good.2.2]

theorem clean_text_append (d : Char) (hd : is_delim d = true) (u v : List Char) :
    clean_text (u ++ d :: v) = clean_text u ++ d :: clean_text v := by
  unfold clean_text
  rw [replaced_plot3_append d hd, replaced_plot5_append d hd, List.map_append, List.map_cons,
    is_delim_not_alpha d hd]
  rfl

theorem clean_text_no_delim (s : List Char) (hs : ∀ c ∈ s, is_delim c = false) :
    ∀ c ∈ clean_text s, is_delim c = false := by
  intro c hc
  unfold clean_text at hc
  rw [List.mem_map] at hc
  obtain ⟨x, hx, hxc⟩ := hc
  have hx2 : is_delim x = false := by
    rcases replaced_mem _ _ 'P' plot5_good.1 plot5_good.2.1 plot5_good.2.2 _ x hx with h | h
    · rcases replaced_mem _ _ 'P' plot3_good.1 plot3_good.2.1 plot3_good.2.2 _ x h with h2 | h2
      · exact hs x h2
      · have : ∀ y ∈ "    0".toList, is_delim y = false := by decide
        exact this x h2
    · have : ∀ y ∈ "    0".toList, is_delim y = false := by decide
      exact this x h
  rw [← hxc]
  split
  · decide
  · exact hx2

/-- The tokens of a cleaned text are the cleaned tokens of the text. -/
theorem tokens_clean_text (s : List Char) : tokens (clean_text s) = (tokens s).map clean_text :=
  tokens_map_of_local clean_text clean_text_append clean_text_nil clean_text_length
    clean_text_no_delim (s.length + 1) s (by omega)

/-- `str_replace` with `PLOT3`: the guard fires exactly on texts shorter than
five characters; otherwise the function returns. -/
theorem str_replace_plot3 (s : List Char) :
    str_replace s "PLOT3".toList "    0".toList =
      if s.length < 5 then .exit (.str_replace_guard s.length 5 5)
      else .done (replaced "PLOT3".toList "    0".toList s, s.length % 2 ^ 32) := by
  unfold str_replace
  have h5 : "PLOT3".toList.length = 5 := rfl
  have h6 : "    0".toList.length = 5 := rfl
  simp only [h5, h6]
  by_cases h : s.length < 5
  · simp [h]
  · rw [str_replace_loop_eq _ _ 'P' plot3_good.1 plot3_good.2.1 plot3_good.2.2 (s.length + 1) s
      (Nat.lt_succ_of_le (List.count_le_length 'P' s))]
    simp [h, Run.bind]

theorem str_replace_plot5 (s : List Char) :
    str_replace s "PLOT5".toList "    0".toList =
      if s.length < 5 then .exit (.str_replace_guard s.length 5 5)
      else .done (replaced "PLOT5".toList "    0".toList s, s.length % 2 ^ 32) := by
  unfold str_replace
  have h5 : "PLOT5".toList.length = 5 := rfl
  have h6 : "    0".toList.length = 5 := rfl
  simp only [h5, h6]
  by_cases h : s.length < 5
  · simp [h]
  · rw [str_replace_loop_eq _ _ 'P' plot5_good.1 plot5_good.2.1 plot5_good.2.2 (s.length + 1) s
      (Nat.lt_succ_of_le (List.count_le_length 'P' s))]
    simp [h, Run.bind]

/-- `cleanup_line` leaves through the guard of `str_replace` when the text
from the first tab on has fewer than five characters, and returns otherwise. -/
theorem cleanup_line_eq (str : List Char) :
    cleanup_line str =
      if (str.dropWhile (fun c => c != '\t')).length < 5 then
        .exit (.str_replace_guard (str.dropWhile (fun c => c != '\t')).length 5 5)
      else .done (str.takeWhile (fun c => c != '\t') ++
        blank_alpha (replaced "PLOT5".toList "    0".toList
          (replaced "PLOT3".toList "    0".toList (str.dropWhile (fun c => c != '\t'))))) := by
  unfold cleanup_line
  simp only [str_replace_plot3, str_replace_plot5]
  by_cases h : (str.dropWhile (fun c => c != '\t')).length < 5
  · rw [if_pos h, if_pos h]
    rfl
  · have h2 : ¬ (replaced "PLOT3".toList "    0".toList
        (str.dropWhile (fun c => c != '\t'))).length < 5 := by
      rw [replaced_length _ _ 'P' plot3_good.1 plot3_good.2.1 plot3_good.2.2]
      exact h
    rw [if_neg h, if_neg h]
    simp only [Run.bind]
    rw [if_neg h2]

theorem takeWhile_ne_tab (first body : List Char) (h : '\t' ∉ first) :
    (first ++ '\t' :: body).takeWhile (fun c => c != '\t') = first ∧
    (first ++ '\t' :: body).dropWhile (fun c => c != '\t') = '\t' :: body := by
  have hp : ∀ a ∈ first, (a != '\t') = true := by
    intro a ha
    simp only [bne_iff_ne, ne_eq]
    intro hcon
    exact h (hcon ▸ ha)
  constructor
  · rw [List.takeWhile_append_of_pos hp]
    simp
  · rw [List.dropWhile_append_of_pos hp]
    simp

/-- On a line with a tab, `cleanup_line` keeps the text before the first tab
and the tab, and cleans what follows. -/
theorem cleanup_line_of_tab (first body : List Char) (h : '\t' ∉ first) (hlen : 4 ≤ body.length) :
    cleanup_line (first ++ '\t' :: body) = .done (first ++ '\t' :: clean_text body) := by
  rw [cleanup_line_eq]
  obtain ⟨h1, h2⟩ := takeWhile_ne_tab first body h
  rw [h1, h2]
  have h3 : ¬ ('\t' :: body).length < 5 := by simp; omega
  rw [if_neg h3]
  have hd : is_delim '\t' = true := by decide
  have e3 := replaced_plot3_append '\t' hd [] body
  have e5 := replaced_plot5_append '\t' hd [] (replaced "PLOT3".toList "    0".toList body)
  have n3 : replaced "PLOT3".toList "    0".toList [] = [] := by decide
  have n5 : replaced "PLOT5".toList "    0".toList [] = [] := by decide
  rw [List.nil_append] at e3 e5
  rw [n3, List.nil_append] at e3
  rw [n5, List.nil_append] at e5
  rw [e3, e5]
  rfl

theorem cleanup_line_short (str : List Char)
    (h : (str.dropWhile (fun c => c != '\t')).length < 5) :
    cleanup_line str =
      .exit (.str_replace_guard (str.dropWhile (fun c => c != '\t')).length 5 5) := by
  rw [cleanup_line_eq, if_pos h]

/-! ## Lemmas on the reading loop -/

/-- A line either has fewer than five characters from its first tab on (or no
tab at all), or it splits at its first tab into a head without tab and a tail
of at least four characters. -/
theorem line_split (str : List Char) :
    (str.dropWhile (fun c => c != '\t')).length < 5 ∨
    ∃ first body, str = first ++ '\t' :: body ∧ '\t' ∉ first ∧ 4 ≤ body.length := by
  by_cases h : (str.dropWhile (fun c => c != '\t')).length < 5
  · exact Or.inl h
  · right
    have hs : str = str.takeWhile (fun c => c != '\t') ++ str.dropWhile (fun c => c != '\t') :=
      (List.takeWhile_append_dropWhile _ str).symm
    cases hd : str.dropWhile (fun c => c != '\t') with
    | nil => rw [hd] at h; simp at h
    | cons x xs =>
      have hne : str.dropWhile (fun c => c != '\t') ≠ [] := by rw [hd]; simp
      have hh := List.head_dropWhile_not (fun c => c != '\t') str hne
      simp only [hd, List.head_cons] at hh
      have hx : x = '\t' := by simpa using hh
      subst hx
      refine ⟨str.takeWhile (fun c => c != '\t'), xs, ?_, ?_, ?_⟩
      · rw [← hd]; exact hs
      · intro hmem
        have := List.mem_takeWhile_imp hmem
        simp at this
      · rw [hd] at h
        simp at h
        omega

/-- What lines 229-255 do with a data line that has at least four
characters after its first tab: the tokens seen by the token loop are the
tokens before the first tab and the cleaned tokens after it. -/
theorem scan_line_data (row : Int) (ncol : Nat) (line first body : List Char) (hrow : 0 ≤ row)
    (hline : c_string line = first ++ '\t' :: body) (hfirst : '\t' ∉ first)
    (hlen : 4 ≤ body.length) :
    scan_line row ncol line =
      .done ((tokens first ++ (tokens body).map clean_text).foldl (store_token ncol)
        { col := -1, rid := [], rcall := [] }) := by
  unfold scan_line
  rw [if_pos hrow, hline, cleanup_line_of_tab first body hfirst hlen]
  simp only [Run.bind]
  rw [token_loop_data row ncol hrow _ _ _ (Nat.lt_succ_self _),
    tokens_append_delim '\t' (by decide) (first.length + 1) first _ (Nat.lt_succ_self _),
    tokens_clean_text]

theorem scan_line_short (row : Int) (ncol : Nat) (line : List Char) (hrow : 0 ≤ row)
    (h : ((c_string line).dropWhile (fun c => c != '\t')).length < 5) :
    scan_line row ncol line =
      .exit (.str_replace_guard ((c_string line).dropWhile (fun c => c != '\t')).length 5 5) := by
  unfold scan_line
  rw [if_pos hrow, cleanup_line_short _ h]
  rfl

theorem scan_line_header (row : Int) (ncol : Nat) (line : List Char) (hrow : ¬ 0 ≤ row) :
    scan_line row ncol line =
      .done { col := -1 + ((tokens (c_string line)).length : Nat), rid := [], rcall := [] } := by
  unfold scan_line
  rw [if_neg hrow]
  simp only [Run.bind]
  rw [token_loop_header row ncol hrow _ _ _ (Nat.lt_succ_self _)]

theorem tokens_split_tab (first body : List Char) :
    tokens (first ++ '\t' :: body) = tokens first ++ tokens body :=
  tokens_append_delim '\t' (by decide) (first.length + 1) first body (Nat.lt_succ_self _)

/-- The token loop of a data line ends with `col + 1` equal to the number of
tokens of the line as it was read: `cleanup_line` moves no token boundary. -/
theorem scan_line_col (row : Int) (ncol : Nat) (line : List Char) (sc : LineScan) (hrow : 0 ≤ row)
    (h : scan_line row ncol line = .done sc) :
    sc.col + 1 = ((tokens (c_string line)).length : Nat) ∧
    (0 ≤ sc.col → sc.rcall.length = ncol) := by
  rcases line_split (c_string line) with hs | ⟨first, body, hline, hfirst, hlen⟩
  · rw [scan_line_short row ncol line hrow hs] at h
    exact absurd h (by simp)
  · rw [scan_line_data row ncol line first body hrow hline hfirst hlen] at h
    have hsc := (Run.done.inj h).symm
    have hcount : (tokens (c_string line)).length =
        (tokens first ++ (tokens body).map clean_text).length := by
      rw [hline, tokens_split_tab]
      simp
    cases hseen : tokens first ++ (tokens body).map clean_text with
    | nil =>
      rw [hseen] at hsc hcount
      rw [hsc, hcount]
      simp
    | cons t0 ts =>
      rw [hseen] at hsc hcount
      obtain ⟨h1, _, h3, _⟩ := foldl_store_token_init ncol t0 ts
      rw [hsc, hcount, h1]
      refine ⟨by simp, fun _ => h3⟩

theorem Run.bind_assoc {α β γ : Type} (x : Run α) (f : α → Run β) (g : β → Run γ) :
    (x.bind f).bind g = x.bind (fun a => (f a).bind g) := by
  cases x <;> rfl

/-- One round of the reading loop, with the work on the line gathered in
`scan_line`. -/
theorem load_loop_succ (fuel : Nat) (inp : List Char) (T : Table) :
    load_loop (fuel + 1) inp T =
      match fgets MAX_LINE inp with
      | none => .done T
      | some (line, rest) =>
        (scan_line T.row T.ncol line).bind (fun sc =>
          if T.row + 1 ≥ MAX_ASM then .exit .too_many_rows
          else if (sc.col % 2 ^ 32).toNat ≠
              (if T.row + 1 = 0 then (sc.col % 2 ^ 32).toNat else T.ncol) then
            .exit (.col_mismatch (T.row + 1 + 1) (sc.col + 1)
              (if T.row + 1 = 0 then (sc.col % 2 ^ 32).toNat else T.ncol))
          else load_loop fuel rest
            { row := T.row + 1,
              ncol := if T.row + 1 = 0 then (sc.col % 2 ^ 32).toNat else T.ncol,
              id := if T.row ≥ 0 then T.id ++ [sc.rid] else T.id,
              call := if T.row ≥ 0 then T.call ++ [sc.rcall] else T.call,
              null_rows :=
                if T.row ≥ 0 ∧ sc.col < 0 then T.null_rows ++ [T.row.toNat]
                else T.null_rows }) := by
  rw [load_loop]
  cases fgets MAX_LINE inp with
  | none => rfl
  | some lr =>
    obtain ⟨line, rest⟩ := lr
    simp only
    unfold scan_line
    rw [Run.bind_assoc]

theorem fgets_aux_spec :
    ∀ (inp : List Char) (k : Nat),
      inp = (fgets_aux inp k).1 ++ (fgets_aux inp k).2 ∧ (fgets_aux inp k).1.length ≤ k ∧
      (inp ≠ [] → 0 < k → (fgets_aux inp k).1 ≠ []) := by
  intro inp
  induction inp with
  | nil => intro k; simp [fgets_aux]
  | cons c r ih =>
    intro k
    rw [fgets_aux]
    by_cases hk : k = 0
    · simp [hk]
    · by_cases hc : c = '\n'
      · simp [hk, hc]
        omega
      · obtain ⟨h1, h2, _⟩ := ih (k - 1)
        simp only [hk, hc, if_false]
        refine ⟨?_, ?_, ?_⟩
        · simp only [List.cons_append]
          rw [← h1]
        · simp only [List.length_cons]
          omega
        · intro _ _
          simp

theorem fgets_some (inp line rest : List Char) (h : fgets MAX_LINE inp = some (line, rest)) :
    inp = line ++ rest ∧ line.length < MAX_LINE ∧ line ≠ [] ∧ rest.length < inp.length := by
  unfold fgets at h
  by_cases he : inp.isEmpty = true
  · simp [he] at h
  · rw [if_neg he] at h
    have hne : inp ≠ [] := fun hcon => he (by rw [hcon]; rfl)
    obtain ⟨h1, h2, h3⟩ := fgets_aux_spec inp (MAX_LINE - 1)
    have hp := Option.some.inj h
    have hl : (fgets_aux inp (MAX_LINE - 1)).1 = line := congrArg Prod.fst hp
    have hr : (fgets_aux inp (MAX_LINE - 1)).2 = rest := congrArg Prod.snd hp
    rw [hl, hr] at h1
    rw [hl] at h2 h3
    have hlne : line ≠ [] := h3 hne (by decide)
    refine ⟨h1, ?_, hlne, ?_⟩
    · have : MAX_LINE - 1 < MAX_LINE := by decide
      omega
    · have := congrArg List.length h1
      have hpos : 0 < line.length := List.length_pos.mpr hlne
      simp at this
      omega

theorem tokens_length_le : ∀ (n : Nat) (s : List Char), s.length < n → (tokens s).length ≤ s.length := by
  intro n
  induction n with
  | zero => intro s h; omega
  | succ n ih =>
    intro s h
    rw [tokens_unfold]
    cases hs : strtok_r s with
    | none => simp
    | some tr =>
      obtain ⟨tok, rest⟩ := tr
      obtain ⟨hlt, _, _⟩ := strtok_r_rest_lt s tok rest hs
      have := ih rest (by omega)
      simp only [List.length_cons]
      omega

theorem c_string_length_le (buf : List Char) : (c_string buf).length ≤ buf.length := by
  unfold c_string
  exact (List.takeWhile_sublist _).length_le

/-- A line read by `fgets` has fewer than `2^31` tokens. -/
theorem line_tokens_lt (inp line rest : List Char) (h : fgets MAX_LINE inp = some (line, rest)) :
    (tokens (c_string line)).length < 100000 := by
  have h1 := (fgets_some inp line rest h).2.1
  have h2 := c_string_length_le line
  have h3 := tokens_length_le _ (c_string line) (Nat.lt_succ_self _)
  have h4 : MAX_LINE = 100000 := rfl
  omega

/-- The data phase of the reading loop: when it returns, every line it read
had `ncol + 1` tokens, and it added one identifier and one profile of `ncol`
codes per line, and left no row pointer NULL. -/
theorem load_loop_data :
    ∀ (fuel : Nat) (inp : List Char) (T T1 : Table), 0 ≤ T.row → T.ncol + 1 < 2 ^ 32 →
      load_loop fuel inp T = .done T1 →
      (∀ l ∈ read_lines fuel inp, (tokens (c_string l)).length = T.ncol + 1) ∧
      T1.ncol = T.ncol ∧
      T1.row = T.row + ((read_lines fuel inp).length : Nat) ∧
      T1.id.length = T.id.length + (read_lines fuel inp).length ∧
      T1.call.length = T.call.length + (read_lines fuel inp).length ∧
      (∀ p ∈ T1.call, p ∈ T.call ∨ p.length = T.ncol) ∧
      T1.null_rows = T.null_rows := by
  intro fuel
  induction fuel with
  | zero =>
    intro inp T T1 _ _ h
    rw [load_loop] at h
    exact absurd h (by simp)
  | succ fuel ih =>
    intro inp T T1 hrow hn h
    rw [load_loop_succ] at h
    rw [read_lines]
    cases hf : fgets MAX_LINE inp with
    | none =>
      rw [hf] at h
      have hT : T = T1 := Run.done.inj h
      subst hT
      simp only [List.not_mem_nil, false_implies, implies_true, List.length_nil, Nat.cast_zero,
        Int.add_zero, Nat.add_zero, true_and, and_true]
      exact fun p hp => Or.inl hp
    | some lr =>
      obtain ⟨line, rest⟩ := lr
      rw [hf] at h
      simp only at h ⊢
      cases hsc : scan_line T.row T.ncol line with
      | hang => rw [hsc] at h; exact absurd h (by simp [Run.bind])
      | exit e => rw [hsc] at h; exact absurd h (by simp [Run.bind])
      | done sc =>
        rw [hsc] at h
        simp only [Run.bind] at h
        have hrow1 : ¬ (T.row + 1 = 0) := by omega
        simp only [hrow1, if_false] at h
        by_cases hmax : T.row + 1 ≥ (MAX_ASM : Int)
        · rw [if_pos hmax] at h
          exact absurd h (by simp)
        · rw [if_neg hmax] at h
          by_cases hcol : (sc.col % 2 ^ 32).toNat ≠ T.ncol
          · rw [if_pos hcol] at h
            exact absurd h (by simp)
          · rw [if_neg hcol] at h
            have hcol2 : (sc.col % 2 ^ 32).toNat = T.ncol := by
              by_contra hc; exact hcol hc
            obtain ⟨hc1, hc2⟩ := scan_line_col T.row T.ncol line sc hrow hsc
            have hcnt := line_tokens_lt inp line rest hf
            have hcolnn : 0 ≤ sc.col := by
              by_contra hneg
              have hm1 : sc.col = -1 := by omega
              rw [hm1] at hcol2
              have : ((-1 : Int) % 2 ^ 32).toNat = 2 ^ 32 - 1 := by decide
              omega
            have hcount : (tokens (c_string line)).length = T.ncol + 1 := by
              have h5 : sc.col % 2 ^ 32 = sc.col := Int.emod_eq_of_lt hcolnn (by omega)
              rw [h5] at hcol2
              omega
            obtain ⟨i1, i2, i3, i4, i5, i6, i7⟩ := ih rest
              { row := T.row + 1, ncol := T.ncol,
                id := if T.row ≥ 0 then T.id ++ [sc.rid] else T.id,
                call := if T.row ≥ 0 then T.call ++ [sc.rcall] else T.call,
                null_rows :=
                  if T.row ≥ 0 ∧ sc.col < 0 then T.null_rows ++ [T.row.toNat]
                  else T.null_rows }
              T1 (by simp; omega) hn h
            have hnot : ¬ (T.row ≥ 0 ∧ sc.col < 0) := by omega
            simp only [ge_iff_le, hrow, if_true, List.length_append, List.length_singleton]
              at i1 i2 i3 i4 i5 i6
            simp only [if_neg hnot] at i7
            refine ⟨?_, i2, ?_, ?_, ?_, ?_, i7⟩
            · intro l hl
              rcases List.mem_cons.mp hl with hl1 | hl2
              · rw [hl1]; exact hcount
              · exact i1 l hl2
            · rw [i3]
              simp only [List.length_cons, Nat.cast_add, Nat.cast_one]
              omega
            · rw [i4]
              simp only [List.length_cons]
              omega
            · rw [i5]
              simp only [List.length_cons]
              omega
            · intro p hp
              rcases i6 p hp with h7 | h7
              · rcases List.mem_append.mp h7 with h8 | h8
                · exact Or.inl h8
                · right
                  rw [List.mem_singleton.mp h8]
                  exact hc2 hcolnn
              · exact Or.inr h7

/-- The whole reading loop on a file whose first line has at least one
token: when it returns, every later line had as many tokens as the first,
`ncol` is that number minus one, and the table holds one identifier and one
profile of `ncol` codes for every later line. -/
theorem load_done_shape_rows (file hdr : List Char) (rows : List (List Char)) (T : Table)
    (hlines : file_lines file = hdr :: rows) (hhdr : tokens (c_string hdr) ≠ [])
    (h : load file = .done T) :
    (∀ l ∈ rows, (tokens (c_string l)).length = (tokens (c_string hdr)).length) ∧
    T.ncol + 1 = (tokens (c_string hdr)).length ∧ T.row = (rows.length : Nat) ∧
    T.id.length = rows.length ∧ T.call.length = rows.length ∧
    (∀ p ∈ T.call, p.length = T.ncol) ∧ T.null_rows = [] := by
  unfold load at h
  unfold file_lines at hlines
  rw [load_loop_succ] at h
  rw [read_lines] at hlines
  cases hf : fgets MAX_LINE file with
  | none => rw [hf] at hlines; exact absurd hlines (by simp)
  | some lr =>
    obtain ⟨line, rest⟩ := lr
    rw [hf] at h hlines
    simp only [List.cons.injEq] at hlines
    obtain ⟨hl1, hl2⟩ := hlines
    subst hl1
    have hcnt := line_tokens_lt file line rest hf
    have hpos : 0 < (tokens (c_string line)).length := List.length_pos.mpr hhdr
    simp only at h
    rw [scan_line_header (-1) 0 line (by decide)] at h
    simp only [Run.bind] at h
    have hmax : ¬ ((-1 : Int) + 1 ≥ (MAX_ASM : Int)) := by decide
    have hz : (-1 : Int) + 1 = 0 := by decide
    have hneg : ¬ ((-1 : Int) ≥ 0) := by decide
    rw [if_neg hmax] at h
    simp only [hz, if_true, ne_eq, not_true_eq_false, if_false, hneg] at h
    have hu : ((-1 + ((tokens (c_string line)).length : Int)) % 2 ^ 32).toNat =
        (tokens (c_string line)).length - 1 := by
      have h1 : (0 : Int) ≤ -1 + ((tokens (c_string line)).length : Int) := by omega
      rw [Int.emod_eq_of_lt h1 (by omega)]
      omega
    rw [hu] at h
    obtain ⟨i1, i2, i3, i4, i5, i6, i7⟩ :=
      load_loop_data _ rest _ T (by simp) (by simp; omega) h
    simp only [List.length_nil, Nat.zero_add, Int.zero_add, List.not_mem_nil, false_or] at i1 i2 i3 i4 i5 i6
    simp only [hneg, false_and, if_false] at i7
    rw [hl2] at i1 i3 i4 i5
    refine ⟨?_, ?_, i3, i4, i5, ?_, i7⟩
    · intro l hl
      rw [i1 l hl]
      omega
    · rw [i2]
      omega
    · intro p hp
      rw [i2]
      exact i6 p hp

/-- The only way out of `scan_line` through `exit` is the guard of
`str_replace`. -/
theorem scan_line_exit (row : Int) (ncol : Nat) (line : List Char) (e : Exit)
    (h : scan_line row ncol line = .exit e) : ∃ k, e = .str_replace_guard k 5 5 := by
  by_cases hrow : 0 ≤ row
  · rcases line_split (c_string line) with hs | ⟨first, body, hline, hfirst, hlen⟩
    · rw [scan_line_short row ncol line hrow hs] at h
      exact ⟨_, (Run.exit.inj h).symm⟩
    · rw [scan_line_data row ncol line first body hrow hline hfirst hlen] at h
      exact absurd h (by simp)
  · rw [scan_line_header row ncol line hrow] at h
    exact absurd h (by simp)

/-- The reading loop never leaves through the empty-identifier diagnostic of
line 239. -/
theorem load_loop_never_empty_id :
    ∀ (fuel : Nat) (inp : List Char) (T : Table) (n : Int),
      load_loop fuel inp T ≠ .exit (.empty_id n) := by
  intro fuel
  induction fuel with
  | zero =>
    intro inp T n
    rw [load_loop]
    simp
  | succ fuel ih =>
    intro inp T n
    rw [load_loop_succ]
    cases hf : fgets MAX_LINE inp with
    | none => simp
    | some lr =>
      obtain ⟨line, rest⟩ := lr
      simp only
      cases hsc : scan_line T.row T.ncol line with
      | hang => simp [Run.bind]
      | exit e =>
        obtain ⟨k, hk⟩ := scan_line_exit _ _ _ e hsc
        subst hk
        simp [Run.bind]
      | done sc =>
        simp only [Run.bind]
        by_cases hmax : T.row + 1 ≥ (MAX_ASM : Int)
        · rw [if_pos hmax]
          simp
        · rw [if_neg hmax]
          by_cases hcol : (sc.col % 2 ^ 32).toNat ≠
              (if T.row + 1 = 0 then (sc.col % 2 ^ 32).toNat else T.ncol)
          · rw [if_pos hcol]
            simp
          · rw [if_neg hcol]
            exact ih rest _ n

/-! ## Lemmas on the codes of tokens -/

/-- Tokens whose value does not fit an `int` are loaded as the `int` that
`atoi` returns, without its sign: `2147483647` and `-2147483648` keep their
value, `3000000000` is loaded as 1294967296 and `4294967295` as 1, and a
value beyond the range of `long` is loaded as 1. -/
theorem allele_code_beyond_int :
    allele_code "2147483647".toList = 2147483647 ∧
    allele_code "-2147483648".toList = 2147483648 ∧
    allele_code "3000000000".toList = 1294967296 ∧
    allele_code "4294967295".toList = 1 ∧
    allele_code "4294967296".toList = 0 ∧
    allele_code "99999999999999999999".toList = 1 ∧
    load "ID\tL1\tL2\nS1\t-7\t4294967295\n".toList =
      .done { row := 1, ncol := 2, id := ["S1".toList], call := [[7, 1]] } := by
  decide

theorem fgets_sample_row (rest : List Char) :
    fgets MAX_LINE ("S1\t1\t2\n".toList ++ rest) = some ("S1\t1\t2\n".toList, rest) := by
  simp [fgets, fgets_aux, MAX_LINE]

theorem fgets_sample_header (rest : List Char) :
    fgets MAX_LINE ("ID\tL1\tL2\n".toList ++ rest) = some ("ID\tL1\tL2\n".toList, rest) := by
  simp [fgets, fgets_aux, MAX_LINE]

theorem scan_sample_row (row : Int) (hrow : 0 ≤ row) :
    scan_line row 2 "S1\t1\t2\n".toList =
      .done { col := 2, rid := "S1".toList, rcall := [1, 2] } := by
  rw [scan_line_data row 2 "S1\t1\t2\n".toList "S1".toList "1\t2\n".toList hrow (by decide)
    (by decide) (by decide)]
  decide

/-- The reading loop on `k` copies of the line `S1<tab>1<tab>2`, from a state
with two locus columns: the loop leaves through the too-many-rows diagnostic
as soon as the row counter reaches `MAX_ASM`. -/
theorem load_loop_sample_rows :
    ∀ (k fuel : Nat) (T : Table), 0 ≤ T.row → T.row < (MAX_ASM : Int) → T.ncol = 2 →
      ((List.replicate k "S1\t1\t2\n".toList).flatten).length < fuel →
      load_loop fuel ((List.replicate k "S1\t1\t2\n".toList).flatten) T =
        if T.row + (k : Int) ≥ (MAX_ASM : Int) then .exit .too_many_rows
        else .done { row := T.row + (k : Int), ncol := 2,
                     id := T.id ++ List.replicate k "S1".toList,
                     call := T.call ++ List.replicate k [1, 2],
                     null_rows := T.null_rows } := by
  intro k
  induction k with
  | zero =>
    intro fuel T h0 hmax hn hf
    obtain ⟨f, hf2⟩ : ∃ f, fuel = f + 1 := ⟨fuel - 1, by omega⟩
    subst hf2
    rw [load_loop_succ]
    have : ¬ (T.row + ((0 : Nat) : Int) ≥ (MAX_ASM : Int)) := by omega
    rw [if_neg this]
    cases T
    simp_all [fgets]
  | succ k ih =>
    intro fuel T h0 hmax hn hf
    obtain ⟨f, hf2⟩ : ∃ f, fuel = f + 1 := ⟨fuel - 1, by omega⟩
    subst hf2
    rw [load_loop_succ, List.replicate_succ, List.flatten_cons, fgets_sample_row]
    simp only
    rw [hn, scan_sample_row T.row h0]
    simp only [Run.bind]
    by_cases hm : T.row + 1 ≥ (MAX_ASM : Int)
    · rw [if_pos hm, if_pos (by push_cast; omega)]
    · rw [if_neg hm]
      have hz : ¬ (T.row + 1 = 0) := by omega
      have hu : ((2 : Int) % 2 ^ 32).toNat = 2 := by decide
      have h20 : ¬ ((2 : Int) < 0) := by decide
      simp only [hz, if_false, hu, ne_eq, not_true_eq_false, ge_iff_le, h0, if_true, h20,
        and_false]
      rw [ih f _ (by simp; omega) (by simp; omega) rfl
        (by rw [List.replicate_succ, List.flatten_cons, List.length_append] at hf
            simp at hf ⊢
            omega)]
      simp only
      by_cases hk : T.row + 1 + (k : Int) ≥ (MAX_ASM : Int)
      · rw [if_pos hk, if_pos (by push_cast; omega)]
      · rw [if_neg hk, if_neg (by push_cast; omega)]
        congr 2
        · push_cast; omega
        · rw [List.replicate_succ]; simp
        · rw [List.replicate_succ]; simp

/-! ## Lemmas on one data line -/

theorem blank_alpha_length (s : List Char) : (blank_alpha s).length = s.length := by
  cases s <;> simp [blank_alpha]

/-! ## Claims on the header line and on the loader -/

/-- C11, evaluated on a file with a header line and no data row: the program
prints only a newline, with either separator, not the label `cgmlst-dists`
and a newline.  The header loop prints the label inside the loop, for
`j = 0`; with at least one sample the header is the label followed by the
separator and identifier of every sample. -/
theorem header_without_samples :
    load "ID\tL1\tL2\n".toList = .done { row := 0, ncol := 2, id := [], call := [] } ∧
    main { csv := false, threads := 1, mode := 3, maxdiff := 9999 } "ID\tL1\tL2\n".toList =
      .done "\n".toList ∧
    main { csv := true, threads := 1, mode := 3, maxdiff := 9999 } "ID\tL1\tL2\n".toList =
      .done "\n".toList ∧
    (∀ (sep : Char) (id : List (List Char)) (N : Nat),
      print_header sep id N =
        (if N = 0 then [] else EXENAME ++ (List.range N).flatMap (fun j => sep :: id.getD j []))
          ++ ['\n']) :=
  ⟨by decide, by decide, by decide, print_header_eq⟩

/-- A blank header line followed by a line of tabs: the load succeeds with one
row whose identifier and profile pointers are NULL. -/
theorem load_blank_header :
    load "\n\t\t\t\t\n".toList =
      .done { row := 1, ncol := 4294967295, id := [[]], call := [[]], null_rows := [0] } := by
  decide

/-- C15, evaluated on a data line that starts with a tab (an empty first
column): the load succeeds, with the next field `7` taken as the identifier
and `[8, 9]` as the profile; and on no file at all does the load leave
through the empty-identifier diagnostic of line 239, because `strtok_r` never
returns an empty token. -/
theorem empty_first_column_is_accepted :
    load "ID\tL1\tL2\n\t7\t8\t9\n".toList =
      .done { row := 1, ncol := 2, id := ["7".toList], call := [[8, 9]] } ∧
    (∀ (file : List Char) (n : Int), load file ≠ .exit (.empty_id n)) :=
  ⟨by decide, fun file n => load_loop_never_empty_id _ file _ n⟩

/-- The load of a table with the header `ID L1 L2` and `k` data lines
`S1 1 2`. -/
theorem load_sample_table (k : Nat) :
    load ("ID\tL1\tL2\n".toList ++ (List.replicate k "S1\t1\t2\n".toList).flatten) =
      if k ≥ 100000 then .exit .too_many_rows
      else .done { row := (k : Int), ncol := 2, id := List.replicate k "S1".toList,
                   call := List.replicate k [1, 2] } := by
  unfold load
  rw [load_loop_succ, fgets_sample_header]
  simp only
  rw [scan_line_header (-1) 0 _ (by decide)]
  simp only [Run.bind]
  have hc : (tokens (c_string "ID\tL1\tL2\n".toList)).length = 3 := by decide
  rw [hc]
  have hmax : ¬ ((-1 : Int) + 1 ≥ (MAX_ASM : Int)) := by decide
  have hz : (-1 : Int) + 1 = 0 := by decide
  have hneg : ¬ ((-1 : Int) ≥ 0) := by decide
  have hu : ((-1 + ((3 : Nat) : Int)) % 2 ^ 32).toNat = 2 := by decide
  rw [if_neg hmax]
  simp only [hz, if_true, ne_eq, not_true_eq_false, if_false, hneg, hu, false_and]
  have hfuel : ((List.replicate k "S1\t1\t2\n".toList).flatten).length <
      ("ID\tL1\tL2\n".toList ++ (List.replicate k "S1\t1\t2\n".toList).flatten).length := by
    rw [List.length_append]
    have h9 : "ID\tL1\tL2\n".toList.length = 9 := rfl
    omega
  rw [load_loop_sample_rows k _ { row := 0, ncol := 2, id := [], call := [] }
    (by decide) (by decide) rfl hfuel]
  have hM : (MAX_ASM : Int) = 100000 := rfl
  by_cases hk : k ≥ 100000
  · rw [if_pos hk, if_pos (by rw [hM]; simp only; omega)]
  · rw [if_neg hk, if_neg (by rw [hM]; simp only; omega)]
    simp

/-- C16, evaluated on tables with the header `ID L1 L2` and `k` data lines
`S1 1 2`: the table with exactly 100,000 samples is rejected with the
too-many-rows failure, and 99,999 samples are the most that load; in general
the load fails exactly when `k ≥ 100000`, because the test `row >= MAX_ASM`
runs after `row` has been incremented. -/
theorem capacity_check_rejects_max_asm :
    load ("ID\tL1\tL2\n".toList ++ (List.replicate 100000 "S1\t1\t2\n".toList).flatten) =
      .exit .too_many_rows ∧
    load ("ID\tL1\tL2\n".toList ++ (List.replicate 99999 "S1\t1\t2\n".toList).flatten) =
      .done { row := 99999, ncol := 2, id := List.replicate 99999 "S1".toList,
              call := List.replicate 99999 [1, 2] } ∧
    (∀ k : Nat,
      load ("ID\tL1\tL2\n".toList ++ (List.replicate k "S1\t1\t2\n".toList).flatten) =
        if k ≥ 100000 then .exit .too_many_rows
        else .done { row := (k : Int), ncol := 2, id := List.replicate k "S1".toList,
                     call := List.replicate k [1, 2] }) := by
  refine ⟨?_, ?_, load_sample_table⟩
  · rw [load_sample_table, if_pos (by decide)]
  · rw [load_sample_table, if_neg (by decide)]
    rfl

/-- C17, evaluated on files with the header `ID L1 L2` (three columns, two of
them loci).  A first data line with five columns gives the diagnostic
`row 2 had 5 cols, expected 2`; a first data line with two columns gives
`row 2 had 2 cols, expected 2`; a second data line with four columns gives
`row 3 had 4 cols, expected 2`.  The row number is one more than the number
of the data row, the actual count includes the identifier column and the
expected count does not. -/
theorem mismatch_diagnostic_numbers :
    load "ID\tL1\tL2\nS1\t1\t2\t3\t4\n".toList = .exit (.col_mismatch 2 5 2) ∧
    load "ID\tL1\tL2\nS1\t12345\n".toList = .exit (.col_mismatch 2 2 2) ∧
    load "ID\tL1\tL2\nS1\t1\t2\nS2\t1\t2\t3\n".toList = .exit (.col_mismatch 3 4 2) := by
  decide

/-- C18: let `s` be the text of a data line from its first tab on (empty when
the line has no tab).  When `s` has fewer than five characters,
`cleanup_line` leaves through the guard of `str_replace` and the reading loop
ends the program with that failure, as for the lines `S1<tab>7` and the blank
line.  When `s` has at least five characters, both calls of `str_replace`
return, the text keeps its length, no occurrence of `PLOT3` or `PLOT5` is
left in it, and `cleanup_line` returns a line of the same length. -/
theorem cleanup_line_guard (line : List Char) :
    (((c_string line).dropWhile (fun c => c != '\t')).length < 5 →
      cleanup_line (c_string line) =
        .exit (.str_replace_guard ((c_string line).dropWhile (fun c => c != '\t')).length 5 5) ∧
      ∀ (fuel : Nat) (inp rest : List Char) (T : Table),
        fgets MAX_LINE inp = some (line, rest) → 0 ≤ T.row →
        load_loop (fuel + 1) inp T =
          .exit (.str_replace_guard
            ((c_string line).dropWhile (fun c => c != '\t')).length 5 5)) ∧
    (5 ≤ ((c_string line).dropWhile (fun c => c != '\t')).length →
      ∃ r3 r5 : List Char,
        str_replace ((c_string line).dropWhile (fun c => c != '\t')) "PLOT3".toList "    0".toList =
          .done (r3, ((c_string line).dropWhile (fun c => c != '\t')).length % 2 ^ 32) ∧
        str_replace r3 "PLOT5".toList "    0".toList = .done (r5, r3.length % 2 ^ 32) ∧
        r3.length = ((c_string line).dropWhile (fun c => c != '\t')).length ∧
        r5.length = ((c_string line).dropWhile (fun c => c != '\t')).length ∧
        (∀ u v, r3 ≠ u ++ "PLOT3".toList ++ v) ∧
        (∀ u v, r5 ≠ u ++ "PLOT3".toList ++ v) ∧
        (∀ u v, r5 ≠ u ++ "PLOT5".toList ++ v) ∧
        cleanup_line (c_string line) =
          .done ((c_string line).takeWhile (fun c => c != '\t') ++ blank_alpha r5) ∧
        ((c_string line).takeWhile (fun c => c != '\t') ++ blank_alpha r5).length =
          (c_string line).length) ∧
    main { csv := false, threads := 1, mode := 3, maxdiff := 9999 } "ID\tL1\nS1\t7\n".toList =
      .exit (.str_replace_guard 3 5 5) ∧
    main { csv := false, threads := 1, mode := 3, maxdiff := 9999 } "ID\tL1\n\n".toList =
      .exit (.str_replace_guard 0 5 5) := by
  refine ⟨?_, ?_, by decide, by decide⟩
  · intro hs
    refine ⟨cleanup_line_short _ hs, ?_⟩
    intro fuel inp rest T hf hrow
    rw [load_loop_succ, hf]
    simp only
    rw [scan_line_short T.row T.ncol line hrow hs]
    rfl
  · intro hs
    have hs2 : ¬ ((c_string line).dropWhile (fun c => c != '\t')).length < 5 := by omega
    have hl3 := replaced_length "PLOT3".toList "    0".toList 'P' plot3_good.1 plot3_good.2.1
      plot3_good.2.2 ((c_string line).dropWhile (fun c => c != '\t'))
    have hl5 := replaced_length "PLOT5".toList "    0".toList 'P' plot5_good.1 plot5_good.2.1
      plot5_good.2.2 (replaced "PLOT3".toList "    0".toList
        ((c_string line).dropWhile (fun c => c != '\t')))
    have hn3 := replaced_no_occurrence "PLOT3".toList "    0".toList 'P' plot3_good.1
      plot3_good.2.1 plot3_good.2.2 ((c_string line).dropWhile (fun c => c != '\t'))
    have hn5 := replaced_no_occurrence "PLOT5".toList "    0".toList 'P' plot5_good.1
      plot5_good.2.1 plot5_good.2.2 (replaced "PLOT3".toList "    0".toList
        ((c_string line).dropWhile (fun c => c != '\t')))
    have hn53 := replaced_no_new_occurrence "PLOT5".toList "    0".toList 'P' plot5_good.1
      plot5_good.2.1 plot5_good.2.2 "PLOT3".toList (by decide) _ hn3
    refine ⟨_, _, ?_, ?_, hl3, hl5.trans hl3, strstr_none _ _ hn3, strstr_none _ _ hn53,
      strstr_none _ _ hn5, ?_, ?_⟩
    · rw [str_replace_plot3, if_neg hs2]
    · rw [str_replace_plot5, if_neg (by rw [hl3]; exact hs2)]
    · rw [cleanup_line_eq, if_neg hs2]
    · rw [List.length_append, blank_alpha_length, hl5, hl3, ← List.length_append,
        List.takeWhile_append_dropWhile]

/-- Witness of C18: the line `S1<tab>7` has three characters from its first
tab on and stops `cleanup_line`; the line `S1<tab>PLOT3` has seven, and
`cleanup_line` returns it with the same length. -/
theorem cleanup_line_guard_witness :
    ((c_string "S1\t7\n".toList).dropWhile (fun c => c != '\t')).length < 5 ∧
    cleanup_line (c_string "S1\t7\n".toList) = .exit (.str_replace_guard 3 5 5) ∧
    5 ≤ ((c_string "S1\tPLOT3\n".toList).dropWhile (fun c => c != '\t')).length ∧
    (∃ buf, cleanup_line (c_string "S1\tPLOT3\n".toList) = .done buf ∧
      buf.length = (c_string "S1\tPLOT3\n".toList).length) ∧
    cleanup_line (c_string "S1\tPLOT3\n".toList) = .done "S1\t    0\n".toList :=
  ⟨by decide,
    ((cleanup_line_guard "S1\t7\n".toList).1 (by decide)).1.trans (by decide),
    by decide,
    match (cleanup_line_guard "S1\tPLOT3\n".toList).2.1 (by decide) with
    | ⟨_, _, h⟩ => ⟨_, h.2.2.2.2.2.2.2.1, h.2.2.2.2.2.2.2.2⟩,
    by decide⟩

/-! ## Claim on the whole program -/

/-- C6: with one thread, mode 3 and the tab separator, for every input file
that loads without leaving a row pointer NULL (as does every file whose
header line has at least one token), the output is the header line (the
label and, for every sample, a tab and its identifier; only the newline when
no sample was loaded) and then, for every sample `j` in load order, one line
made of `id_j` followed, for `i = 0 .. N-1`, by a tab and
`distance(profile_j, profile_i, maxdiff)` printed with `%d`.  On the example
table of the specification with cap 9999 the output is exactly the four lines
given there.  Evaluated on a file with a blank header line followed by a
line of tabs: the reading loop ends with one sample whose pointers `id[0]`
and `call[0]` are NULL, and the program is killed in `distance` without
writing any output. -/
theorem main_one_thread_full (file : List Char) (maxdiff : Int) (T : Table)
    (h : load file = .done T) (hrows : T.null_rows = []) :
    main { csv := false, threads := 1, mode := 3, maxdiff := maxdiff } file =
      .done
        (((if T.row.toNat = 0 then []
            else EXENAME ++ (List.range T.row.toNat).flatMap (fun j => '\t' :: T.id.getD j []))
          ++ ['\n']) ++
        (List.range T.row.toNat).flatMap (fun j =>
          T.id.getD j [] ++
          (List.range T.row.toNat).flatMap (fun i =>
            '\t' :: fmt_d (distance (T.call.getD j []) (T.call.getD i []) T.ncol
              (maxdiff % 2 ^ 32).toNat)) ++ ['\n'])) ∧
    main { csv := false, threads := 1, mode := 3, maxdiff := 9999 }
        "ID\tL1\tL2\nS1\t1\t2\nS2\t1\t3\nS3\t2\t2\n".toList =
      .done "cgmlst-dists\tS1\tS2\tS3\nS1\t0\t1\t1\nS2\t1\t0\t2\nS3\t1\t2\t0\n".toList ∧
    (∀ (file1 hdr : List Char) (rows : List (List Char)) (T1 : Table),
      file_lines file1 = hdr :: rows → tokens (c_string hdr) ≠ [] → load file1 = .done T1 →
      T1.null_rows = []) ∧
    load "\n\t\t\t\t\n".toList =
      .done { row := 1, ncol := 4294967295, id := [[]], call := [[]], null_rows := [0] } ∧
    main { csv := false, threads := 1, mode := 3, maxdiff := 9999 } "\n\t\t\t\t\n".toList =
      .exit .segfault := by
  refine ⟨?_, by decide, ?_, by decide, by decide⟩
  · unfold main
    rw [h]
    simp only [Run.bind]
    have h1 : (if (1 : Int) < 1 then 1 else (1 : Int).toNat) = 1 := by decide
    rw [h1, hrows, reads_null_row_nil, emit_one_thread_full]
    rfl
  · intro file1 hdr rows T1 hlines hhdr hload
    exact (load_done_shape_rows file1 hdr rows T1 hlines hhdr hload).2.2.2.2.2.2

/-- Witness of C6: the example file loads into the three profiles, and the
general form of the output, taken at that table, is the four lines of the
example. -/
theorem main_one_thread_full_witness :
    load "ID\tL1\tL2\nS1\t1\t2\nS2\t1\t3\nS3\t2\t2\n".toList =
      .done { row := 3, ncol := 2, id := ["S1".toList, "S2".toList, "S3".toList],
              call := [[1, 2], [1, 3], [2, 2]], null_rows := [] } ∧
    main { csv := false, threads := 1, mode := 3, maxdiff := 9999 }
        "ID\tL1\tL2\nS1\t1\t2\nS2\t1\t3\nS3\t2\t2\n".toList =
      .done "cgmlst-dists\tS1\tS2\tS3\nS1\t0\t1\t1\nS2\t1\t0\t2\nS3\t1\t2\t0\n".toList :=
  ⟨by decide,
    (main_one_thread_full "ID\tL1\tL2\nS1\t1\t2\nS2\t1\t3\nS3\t2\t2\n".toList 9999
      { row := 3, ncol := 2, id := ["S1".toList, "S2".toList, "S3".toList],
        call := [[1, 2], [1, 3], [2, 2]], null_rows := [] } (by decide) rfl).1.trans (by decide)⟩

end CgmlstDists
